import Mathlib

/-!
Verification of the `rust-cab` cabinet-archive library against its
natural-language specification.

The Rust sources are shallowly embedded: bytes are natural numbers
below 256, byte buffers are `List Nat`, machine integers are `Nat`
with explicit `% 2 ^ w` at the points where the Rust code can wrap,
and fallible operations return `Option` or `Except`.  The external
`flate2` deflate engine used by the MSZIP codec is not part of the
repository; it is abstracted as a pair of functions, and theorems
that depend on it take its documented inverse property as an
explicit hypothesis.
-/

namespace RustCab

/-- Byte buffers of the Rust code (`&[u8]` / `Vec<u8>`). -/
abbrev Bytes := List Nat

/-- All elements of a buffer are bytes (fit in `u8`). -/
def ByteVals (l : Bytes) : Prop := ∀ b ∈ l, b < 256

instance : DecidablePred ByteVals := fun l =>
  inferInstanceAs (Decidable (∀ b ∈ l, b < 256))

/-- A `u16` value written in little-endian order (`write_u16::<LittleEndian>`). -/
def le16 (n : Nat) : Bytes := [n % 256, (n / 256) % 256]

/-- Bitwise complement of a `u16` value (Rust `!x` on `u16`). -/
def not16 (n : Nat) : Nat := 65535 - n % 65536

/-- The last `k` elements of a list (a deflate-style sliding window). -/
def lastN (k : Nat) (l : Bytes) : Bytes := l.drop (l.length - k)

theorem lastN_length_le (k : Nat) (l : Bytes) : (lastN k l).length ≤ k := by
  simp only [lastN, List.length_drop]
  omega

theorem lastN_of_length_le {k : Nat} {l : Bytes} (h : l.length ≤ k) : lastN k l = l := by
  simp only [lastN]
  have : l.length - k = 0 := by omega
  simp [this]

theorem lastN_append_lastN (k : Nat) (a b : Bytes) :
    lastN k (lastN k a ++ b) = lastN k (a ++ b) := by
  simp only [lastN, List.length_append, List.length_drop]
  rw [List.drop_append_eq_append_drop, List.drop_append_eq_append_drop, List.drop_drop]
  congr 2
  · omega
  · simp only [List.length_drop]
    omega

/-! ### Bit-manipulation helpers -/

theorem testBit_false_of_lt_of_le {a k i : Nat} (h : a < 2 ^ k) (hk : k ≤ i) :
    a.testBit i = false :=
  Nat.testBit_lt_two_pow (lt_of_lt_of_le h (Nat.pow_le_pow_right (by norm_num) hk))

theorem lor_shl_shiftRight {a b k : Nat} (h : a < 2 ^ k) : (a ||| (b <<< k)) >>> k = b := by
  apply Nat.eq_of_testBit_eq
  intro i
  rw [Nat.testBit_shiftRight, Nat.testBit_or, Nat.testBit_shiftLeft,
    testBit_false_of_lt_of_le h (Nat.le_add_right k i)]
  simp only [Bool.false_or]
  have h1 : k ≤ k + i := Nat.le_add_right k i
  have h2 : k + i - k = i := by omega
  simp [h1, h2]

theorem lor_shl_mask {a b k : Nat} (h : a < 2 ^ k) :
    (a ||| (b <<< k)) &&& (2 ^ k - 1) = a := by
  apply Nat.eq_of_testBit_eq
  intro i
  rw [Nat.testBit_and, Nat.testBit_or, Nat.testBit_shiftLeft, Nat.testBit_two_pow_sub_one]
  by_cases hik : i < k
  · have hk : ¬ (k ≤ i) := by omega
    simp [hik, hk]
  · have hb : a.testBit i = false := testBit_false_of_lt_of_le h (by omega)
    simp [hik, hb]

theorem shl_lt_two_pow {b j k : Nat} (hb : b < 2 ^ j) : b <<< k < 2 ^ (j + k) := by
  rw [Nat.shiftLeft_eq, pow_add]
  exact Nat.mul_lt_mul_of_lt_of_le hb (le_refl _) (by positivity)

theorem nat_xor_left_comm (a b c : Nat) : a ^^^ (b ^^^ c) = b ^^^ (a ^^^ c) := by
  rw [← Nat.xor_assoc, Nat.xor_comm a b, Nat.xor_assoc]

theorem nat_xor_rot (a b c : Nat) : a ^^^ (b ^^^ c) = c ^^^ (b ^^^ a) := by
  rw [Nat.xor_comm b c, ← Nat.xor_assoc, Nat.xor_comm a c, Nat.xor_assoc, Nat.xor_comm a b]

/-! ### `src/checksum.rs`: the CAB data-block checksum -/

/-- State of `checksum.rs`'s `Checksum` accumulator. -/
structure Checksum where
  value : Nat
  remainder : Nat
  remainder_shift : Nat
deriving Repr, DecidableEq

/-- `Checksum::new`. -/
def Checksum.new : Checksum := ⟨0, 0, 0⟩

/-- One iteration of the loop body of `Checksum::update`. -/
def Checksum.updateByte (c : Checksum) (byte : Nat) : Checksum :=
  let r := c.remainder ||| (byte <<< c.remainder_shift)
  if c.remainder_shift = 24 then
    { value := c.value ^^^ r, remainder := 0, remainder_shift := 0 }
  else
    { c with remainder := r, remainder_shift := c.remainder_shift + 8 }

/-- `Checksum::update`: fold the loop body over the buffer. -/
def Checksum.update (c : Checksum) (buf : Bytes) : Checksum :=
  buf.foldl Checksum.updateByte c

/-- `Checksum::value`; the `unreachable!` arm is modelled as `0`
(it is never hit from states reachable via `update`). -/
def Checksum.finalValue (c : Checksum) : Nat :=
  if c.remainder_shift = 0 then c.value
  else if c.remainder_shift = 8 then c.value ^^^ c.remainder
  else if c.remainder_shift = 16 then
    (c.value ^^^ (c.remainder >>> 8)) ^^^ ((c.remainder &&& 0xff) <<< 8)
  else if c.remainder_shift = 24 then
    ((c.value ^^^ (c.remainder >>> 16)) ^^^ (c.remainder &&& 0xff00)) ^^^
      ((c.remainder &&& 0xff) <<< 16)
  else 0

/-- What the specification says the checksum of a byte sequence is:
the XOR of all complete little-endian 32-bit words, with the partial
tail contributing `b0`, `(b0<<8) XOR b1`, or
`(b0<<16) XOR (b1<<8) XOR b2` for tails of one, two or three bytes. -/
def checksumSpec : Bytes → Nat
  | b0 :: b1 :: b2 :: b3 :: rest =>
      (((b0 ||| (b1 <<< 8)) ||| (b2 <<< 16)) ||| (b3 <<< 24)) ^^^ checksumSpec rest
  | [] => 0
  | [b0] => b0
  | [b0, b1] => (b0 <<< 8) ^^^ b1
  | [b0, b1, b2] => ((b0 <<< 16) ^^^ (b1 <<< 8)) ^^^ b2

theorem rem2_shiftRight {b0 b1 : Nat} (h0 : b0 < 256) :
    (b0 ||| (b1 <<< 8)) >>> 8 = b1 :=
  lor_shl_shiftRight h0

theorem rem2_mask {b0 b1 : Nat} (h0 : b0 < 256) :
    (b0 ||| (b1 <<< 8)) &&& 0xff = b0 := by
  have : (0xff : Nat) = 2 ^ 8 - 1 := by norm_num
  rw [this]
  exact lor_shl_mask h0

theorem rem2_lt {b0 b1 : Nat} (h0 : b0 < 256) (h1 : b1 < 256) :
    b0 ||| (b1 <<< 8) < 2 ^ 16 := by
  apply Nat.or_lt_two_pow
  · exact lt_of_lt_of_le h0 (by norm_num)
  · have := shl_lt_two_pow (j := 8) (k := 8) h1
    simpa using this

theorem rem3_shiftRight {b0 b1 b2 : Nat} (h0 : b0 < 256) (h1 : b1 < 256) :
    ((b0 ||| (b1 <<< 8)) ||| (b2 <<< 16)) >>> 16 = b2 :=
  lor_shl_shiftRight (rem2_lt h0 h1)

theorem rem3_mask_low {b0 b1 b2 : Nat} (h0 : b0 < 256) :
    ((b0 ||| (b1 <<< 8)) ||| (b2 <<< 16)) &&& 0xff = b0 := by
  apply Nat.eq_of_testBit_eq
  intro i
  rw [Nat.testBit_and, Nat.testBit_or, Nat.testBit_or]
  have hff : (0xff : Nat) = 2 ^ 8 - 1 := by norm_num
  rw [hff, Nat.testBit_two_pow_sub_one, Nat.testBit_shiftLeft, Nat.testBit_shiftLeft]
  by_cases hik : i < 8
  · have h8 : ¬ (8 ≤ i) := by omega
    have h16 : ¬ (16 ≤ i) := by omega
    simp [hik, h8, h16]
  · have hb : b0.testBit i = false := testBit_false_of_lt_of_le (k := 8) (by omega) (by omega)
    simp [hik, hb]

theorem rem3_mask_mid {b0 b1 b2 : Nat} (h0 : b0 < 256) (h1 : b1 < 256) :
    ((b0 ||| (b1 <<< 8)) ||| (b2 <<< 16)) &&& 0xff00 = b1 <<< 8 := by
  apply Nat.eq_of_testBit_eq
  intro i
  rw [Nat.testBit_and, Nat.testBit_or, Nat.testBit_or]
  have hff : (0xff00 : Nat) = (2 ^ 8 - 1) <<< 8 := by decide
  rw [hff, Nat.testBit_shiftLeft, Nat.testBit_shiftLeft, Nat.testBit_shiftLeft,
    Nat.testBit_two_pow_sub_one]
  by_cases hlo : i < 8
  · have h8 : ¬ (8 ≤ i) := by omega
    simp [h8]
  · by_cases hhi : i < 16
    · have h8 : 8 ≤ i := by omega
      have h16 : ¬ (16 ≤ i) := by omega
      have hb : b0.testBit i = false := testBit_false_of_lt_of_le (k := 8) (by omega) (by omega)
      have hm : i - 8 < 8 := by omega
      simp [h8, h16, hb, hm]
    · have h8 : 8 ≤ i := by omega
      have hb1 : b1.testBit (i - 8) = false :=
        testBit_false_of_lt_of_le (k := 8) (by omega) (by omega)
      have hm : ¬ (i - 8 < 8) := by omega
      simp [h8, hb1, hm]

/-- Running `update` from a word-aligned state `⟨v, 0, 0⟩` and then reading
`value()` gives `v XOR checksumSpec s`. -/
theorem update_finalValue (s : Bytes) : ∀ v : Nat, ByteVals s →
    (Checksum.update ⟨v, 0, 0⟩ s).finalValue = v ^^^ checksumSpec s := by
  induction s using checksumSpec.induct with
  | case1 b0 b1 b2 b3 rest ih =>
      intro v h
      have hrest : ByteVals rest := fun b hb => h b (by simp [hb])
      have e : Checksum.update ⟨v, 0, 0⟩ (b0 :: b1 :: b2 :: b3 :: rest) =
          Checksum.update
            ⟨v ^^^ (((b0 ||| (b1 <<< 8)) ||| (b2 <<< 16)) ||| (b3 <<< 24)), 0, 0⟩ rest := by
        simp [Checksum.update, Checksum.updateByte]
      rw [e, ih _ hrest, checksumSpec, Nat.xor_assoc]
  | case2 =>
      intro v h
      simp [Checksum.update, checksumSpec, Checksum.finalValue]
  | case3 b0 =>
      intro v h
      have e : Checksum.update ⟨v, 0, 0⟩ [b0] = ⟨v, b0, 8⟩ := by
        simp [Checksum.update, Checksum.updateByte]
      rw [e]
      simp [Checksum.finalValue, checksumSpec]
  | case4 b0 b1 =>
      intro v h
      have h0 : b0 < 256 := h b0 (by simp)
      have e : Checksum.update ⟨v, 0, 0⟩ [b0, b1] = ⟨v, b0 ||| (b1 <<< 8), 16⟩ := by
        simp [Checksum.update, Checksum.updateByte]
      rw [e]
      simp only [Checksum.finalValue, checksumSpec]
      norm_num [rem2_shiftRight h0, rem2_mask h0]
      rw [Nat.xor_assoc]
      congr 1
      exact Nat.xor_comm _ _
  | case5 b0 b1 b2 =>
      intro v h
      have h0 : b0 < 256 := h b0 (by simp)
      have h1 : b1 < 256 := h b1 (by simp)
      have e : Checksum.update ⟨v, 0, 0⟩ [b0, b1, b2] =
          ⟨v, (b0 ||| (b1 <<< 8)) ||| (b2 <<< 16), 24⟩ := by
        simp [Checksum.update, Checksum.updateByte]
      rw [e]
      simp only [Checksum.finalValue, checksumSpec]
      norm_num [rem3_shiftRight h0 h1, rem3_mask_low h0, rem3_mask_mid h0 h1]
      rw [Nat.xor_assoc, Nat.xor_assoc]
      congr 1
      rw [Nat.xor_assoc]
      exact nat_xor_rot _ _ _

/-- Feeding a list of chunks one `update` call at a time. -/
def Checksum.updateChunks (c : Checksum) (chunks : List Bytes) : Checksum :=
  chunks.foldl Checksum.update c

theorem Checksum.update_append (c : Checksum) (a b : Bytes) :
    c.update (a ++ b) = (c.update a).update b := by
  simp [Checksum.update]

theorem Checksum.updateChunks_eq_flatten (c : Checksum) (chunks : List Bytes) :
    c.updateChunks chunks = c.update chunks.flatten := by
  induction chunks generalizing c with
  | nil => rfl
  | cons x xs ih =>
      show (c.update x).updateChunks xs = _
      rw [ih, List.flatten_cons, Checksum.update_append]

/-- C5: in any chunking, `Checksum::value` equals the XOR of the complete
little-endian 32-bit words with the specified tail contributions, and the
18-byte anchor `"\x0e\0\x0e\0Hello, world!\n"` yields `0x7F2E1A4C`. -/
theorem checksum_value_spec :
    (∀ chunks : List Bytes, ByteVals chunks.flatten →
      (Checksum.new.updateChunks chunks).finalValue = checksumSpec chunks.flatten) ∧
    (Checksum.new.update
        [0x0e, 0, 0x0e, 0,
         0x48, 0x65, 0x6c, 0x6c, 0x6f, 0x2c, 0x20, 0x77, 0x6f, 0x72,
         0x6c, 0x64, 0x21, 0x0a]).finalValue = 0x7f2e1a4c := by
  constructor
  · intro chunks h
    rw [Checksum.updateChunks_eq_flatten]
    have := update_finalValue chunks.flatten 0 h
    simpa [Checksum.new] using this
  · decide

/-- Witness for C5 at a concrete chunking: the anchor split into two
`update` calls gives the same value as the spec formula. -/
theorem checksum_value_spec_witness :
    ByteVals ([[0x0e, 0, 0x0e, 0], [0x48, 0x69, 0x21]] : List Bytes).flatten ∧
    (Checksum.new.updateChunks [[0x0e, 0, 0x0e, 0], [0x48, 0x69, 0x21]]).finalValue =
      checksumSpec ([[0x0e, 0, 0x0e, 0], [0x48, 0x69, 0x21]] : List Bytes).flatten :=
  ⟨by decide, checksum_value_spec.1 [[0x0e, 0, 0x0e, 0], [0x48, 0x69, 0x21]] (by decide)⟩

/-! ### `src/datetime.rs`: MS-DOS date/time encoding -/

/-- A `time::PrimitiveDateTime` value, by components. -/
structure DateTime where
  year : Int
  month : Nat
  day : Nat
  hour : Nat
  minute : Nat
  second : Nat
  nanosecond : Nat
deriving Repr, DecidableEq

/-- Proleptic-Gregorian leap-year rule used by the `time` crate. -/
def isLeapYear (y : Int) : Bool :=
  y % 4 == 0 && (y % 100 != 0 || y % 400 == 0)

def daysInMonth (y : Int) (m : Nat) : Nat :=
  if m = 2 then (if isLeapYear y then 29 else 28)
  else if m = 4 ∨ m = 6 ∨ m = 9 ∨ m = 11 then 30
  else 31

/-- The component ranges `time::PrimitiveDateTime` maintains. -/
def DateTime.Valid (dt : DateTime) : Prop :=
  1 ≤ dt.month ∧ dt.month ≤ 12 ∧ 1 ≤ dt.day ∧ dt.day ≤ daysInMonth dt.year dt.month ∧
  dt.hour < 24 ∧ dt.minute < 60 ∧ dt.second < 60 ∧ dt.nanosecond < 1000000000

instance (dt : DateTime) : Decidable dt.Valid :=
  inferInstanceAs (Decidable (_ ∧ _))

/-- `datetime + Duration::seconds(1)` on a valid datetime: carry through
minute, hour, day, month and year; the sub-second part is unchanged. -/
def DateTime.addOneSecond (dt : DateTime) : DateTime :=
  if dt.second + 1 < 60 then { dt with second := dt.second + 1 }
  else if dt.minute + 1 < 60 then { dt with second := 0, minute := dt.minute + 1 }
  else if dt.hour + 1 < 24 then { dt with second := 0, minute := 0, hour := dt.hour + 1 }
  else if dt.day + 1 ≤ daysInMonth dt.year dt.month then
    { dt with second := 0, minute := 0, hour := 0, day := dt.day + 1 }
  else if dt.month + 1 ≤ 12 then
    { dt with second := 0, minute := 0, hour := 0, day := 1, month := dt.month + 1 }
  else
    { dt with second := 0, minute := 0, hour := 0, day := 1, month := 1, year := dt.year + 1 }

/-- Truncation to `u16` (the wrap of Rust `u16` arithmetic). -/
def u16wrap (n : Nat) : Nat := n % 65536

/-- The date word computed by `datetime_to_bits`; the only `u16` operation
that can overflow is `(year - 1980) << 9`, marked with `u16wrap`. -/
def packDate (e : DateTime) : Nat :=
  u16wrap (((e.year - 1980).toNat) <<< 9) ||| (e.month <<< 5) ||| e.day

/-- The time word computed by `datetime_to_bits` (no `u16` overflow is
possible here for valid components). -/
def packTime (e : DateTime) : Nat :=
  (e.hour <<< 11) ||| (e.minute <<< 5) ||| e.second / 2

/-- `datetime.rs`'s `datetime_to_bits`. -/
def datetime_to_bits (dt : DateTime) : Nat × Nat :=
  if dt.year < 1980 then (0x21, 0)
  else if dt.year > 2107 then (0xff9f, 0xbf7d)
  else
    let dt := if dt.second % 2 ≠ 0 then dt.addOneSecond else dt
    (packDate dt, packTime dt)

/-- The date word as the specification states it: the `u16` field
`((year-1980)<<9) | (month<<5) | day`. -/
def specPackDate (e : DateTime) : Nat :=
  u16wrap (((((e.year - 1980).toNat) <<< 9) ||| (e.month <<< 5)) ||| e.day)

/-- The time word as the specification states it: the `u16` field
`(hour<<11) | (minute<<5) | (second/2)`. -/
def specPackTime (e : DateTime) : Nat :=
  u16wrap ((((e.hour <<< 11)) ||| (e.minute <<< 5)) ||| e.second / 2)

/-- The specification's encode pipeline for years 1980-2107: drop sub-second
precision, round an odd seconds value up one second, then pack. -/
def specRoundedPack (dt : DateTime) : Nat × Nat :=
  let dt0 : DateTime := { dt with nanosecond := 0 }
  let dt1 := if dt0.second % 2 ≠ 0 then dt0.addOneSecond else dt0
  (specPackDate dt1, specPackTime dt1)

theorem addOneSecond_nanozero (dt : DateTime) :
    DateTime.addOneSecond ⟨dt.year, dt.month, dt.day, dt.hour, dt.minute, dt.second, 0⟩ =
      ⟨dt.addOneSecond.year, dt.addOneSecond.month, dt.addOneSecond.day, dt.addOneSecond.hour,
        dt.addOneSecond.minute, dt.addOneSecond.second, 0⟩ := by
  cases dt with
  | mk y mo d h mi s n =>
      simp only [DateTime.addOneSecond]
      split_ifs <;> rfl

theorem daysInMonth_le_31 (y : Int) (m : Nat) : daysInMonth y m ≤ 31 := by
  simp only [daysInMonth]
  split_ifs <;> omega

theorem addOneSecond_bounds {dt : DateTime} (h : dt.Valid) :
    dt.addOneSecond.month ≤ 12 ∧ dt.addOneSecond.day ≤ 31 ∧
    dt.addOneSecond.hour < 24 ∧ dt.addOneSecond.minute < 60 ∧
    dt.addOneSecond.second < 60 := by
  obtain ⟨hm1, hm2, hd1, hd2, hh, hmi, hs, hn⟩ := h
  have h31 := daysInMonth_le_31 dt.year dt.month
  simp only [DateTime.addOneSecond]
  split_ifs <;> simp <;> omega

theorem mod_or_small {x s : Nat} (hs : s < 65536) :
    (x % 65536) ||| s = (x ||| s) % 65536 := by
  have h16 : (65536 : Nat) = 2 ^ 16 := by norm_num
  apply Nat.eq_of_testBit_eq
  intro i
  rw [Nat.testBit_or, h16, Nat.testBit_mod_two_pow, Nat.testBit_mod_two_pow, Nat.testBit_or]
  by_cases hi : i < 16
  · simp [hi]
  · have hf : s.testBit i = false :=
      testBit_false_of_lt_of_le (k := 16) (by omega) (by omega)
    simp [hi, hf]

theorem or_lt_65536 {a b : Nat} (ha : a < 65536) (hb : b < 65536) :
    a ||| b < 65536 := by
  have h16 : (65536 : Nat) = 2 ^ 16 := by norm_num
  rw [h16] at ha hb ⊢
  exact Nat.or_lt_two_pow ha hb

theorem packDate_eq_spec {e : DateTime} (hm : e.month ≤ 12) (hd : e.day ≤ 31) :
    packDate e = specPackDate e := by
  have hm32 : e.month <<< 5 < 65536 := by
    rw [Nat.shiftLeft_eq]
    norm_num
    omega
  have hd16 : e.day < 65536 := by omega
  simp only [packDate, specPackDate, u16wrap]
  rw [mod_or_small hm32, mod_or_small hd16]

theorem packTime_eq_spec {e : DateTime} (hh : e.hour < 24) (hmi : e.minute < 60)
    (hs : e.second < 60) : packTime e = specPackTime e := by
  have hh16 : e.hour <<< 11 < 65536 := by
    rw [Nat.shiftLeft_eq]
    norm_num
    omega
  have hmi16 : e.minute <<< 5 < 65536 := by
    rw [Nat.shiftLeft_eq]
    norm_num
    omega
  have hs16 : e.second / 2 < 65536 := by omega
  simp only [packTime, specPackTime, u16wrap]
  rw [Nat.mod_eq_of_lt (or_lt_65536 (or_lt_65536 hh16 hmi16) hs16)]

/-- C7: `datetime_to_bits` clamps years below 1980 to `(0x0021, 0x0000)` and
years above 2107 to `(0xFF9F, 0xBF7D)`; for years 1980-2107 it drops
sub-seconds, rounds an odd seconds value up one second, and then packs the
`u16` fields `((year-1980)<<9)|(month<<5)|day` and
`(hour<<11)|(minute<<5)|(second/2)`. -/
theorem datetime_to_bits_spec (dt : DateTime) (h : dt.Valid) :
    (dt.year < 1980 → datetime_to_bits dt = (0x21, 0)) ∧
    (dt.year > 2107 → datetime_to_bits dt = (0xff9f, 0xbf7d)) ∧
    (1980 ≤ dt.year → dt.year ≤ 2107 → datetime_to_bits dt = specRoundedPack dt) := by
  refine ⟨fun hy => by simp [datetime_to_bits, hy], fun hy => ?_, fun hy1 hy2 => ?_⟩
  · have hlt : ¬ dt.year < 1980 := by omega
    simp [datetime_to_bits, hy, hlt]
  · have hlt : ¬ dt.year < 1980 := by omega
    have hgt : ¬ dt.year > 2107 := by omega
    simp only [datetime_to_bits, specRoundedPack]
    rw [if_neg hlt, if_neg hgt]
    by_cases hodd : dt.second % 2 ≠ 0
    · obtain ⟨hbm, hbd, hbh, hbmi, hbs⟩ := addOneSecond_bounds h
      rw [if_pos hodd, if_pos hodd, addOneSecond_nanozero]
      show (packDate dt.addOneSecond, packTime dt.addOneSecond) =
        (specPackDate dt.addOneSecond, specPackTime dt.addOneSecond)
      rw [packDate_eq_spec hbm hbd, packTime_eq_spec hbh hbmi hbs]
    · obtain ⟨hm1, hm2, hd1, hd2, hh, hmi, hs, hn⟩ := h
      rw [if_neg hodd, if_neg hodd]
      show (packDate dt, packTime dt) = (specPackDate dt, specPackTime dt)
      rw [packDate_eq_spec hm2 (le_trans hd2 (daysInMonth_le_31 _ _)),
        packTime_eq_spec hh hmi hs]

/-- Witness for C7 at the repository's own test vector
`2018-01-06 15:19:42` (expected bits `(0x4C26, 0x7A75)`). -/
theorem datetime_to_bits_spec_witness :
    (DateTime.Valid ⟨2018, 1, 6, 15, 19, 42, 0⟩ ∧
      (1980 : Int) ≤ 2018 ∧ (2018 : Int) ≤ 2107) ∧
    datetime_to_bits ⟨2018, 1, 6, 15, 19, 42, 0⟩ =
      specRoundedPack ⟨2018, 1, 6, 15, 19, 42, 0⟩ ∧
    datetime_to_bits ⟨2018, 1, 6, 15, 19, 42, 0⟩ = (0x4c26, 0x7a75) :=
  ⟨⟨by decide, by decide, by decide⟩,
   (datetime_to_bits_spec ⟨2018, 1, 6, 15, 19, 42, 0⟩ (by decide)).2.2
     (by decide) (by decide),
   by decide⟩

/-- C8: the code does not clamp `2107-12-31 23:59:59`; the odd-second
round-up carries into year 2108 and the `u16` shift wraps, so the result
is `(0x0021, 0x0000)` (the encoding of 1980-01-01 00:00:00) rather than
the specified `(0xFF9F, 0xBF7D)`. -/
theorem datetime_to_bits_overflow_2107 :
    datetime_to_bits ⟨2107, 12, 31, 23, 59, 59, 0⟩ = (0x21, 0) ∧
    datetime_to_bits ⟨2107, 12, 31, 23, 59, 59, 0⟩ ≠ (0xff9f, 0xbf7d) := by
  constructor
  · decide
  · decide

/-! ### `src/mszip.rs`: the MSZIP block codec

The deflate engine itself lives in the external `flate2` crate, so it is
abstracted by two functions:

* `defl window data is_last`: the bytes `compress_vec` emits for one
  block, given the live stream's current (at most `0x8000`-byte) history
  window, with a `Finish` (`is_last`) or `Sync` flush;
* `infl dict data`: the output of resetting the raw inflater, priming it
  with the dictionary `dict` (the code does this by feeding a synthetic
  stored block), and inflating `data` to completion with `Finish`.

Theorems about the codec take the deflate round-trip contract on these
two functions as an explicit hypothesis. -/

def DEFLATE_MAX_DICT_LEN : Nat := 0x8000

/-- The live `flate2::Compress` stream, abstracted by the input history
it has been fed (only its last `0x8000` bytes can influence output). -/
structure MsZipCompressor where
  history : Bytes
deriving Repr, DecidableEq

def MsZipCompressor.new : MsZipCompressor := ⟨[]⟩

/-- `MsZipCompressor::compress_block`: signature `CK`, deflate body, the
`0x0003` terminator on non-final blocks, and the stored-block fallback
when the output would exceed `input_len + 7` bytes. -/
def MsZipCompressor.compress_block (defl : Bytes → Bytes → Bool → Bytes)
    (c : MsZipCompressor) (data : Bytes) (is_last_block : Bool) :
    Bytes × MsZipCompressor :=
  let body := defl (lastN DEFLATE_MAX_DICT_LEN c.history) data is_last_block
  let out := 0x43 :: 0x4B :: (body ++ (if is_last_block then [] else [0x03, 0x00]))
  let max_out_len := data.length + 7
  let out :=
    if out.length > max_out_len then
      0x43 :: 0x4B :: 0x01 :: (le16 data.length ++ le16 (not16 data.length) ++ data)
    else out
  (out, ⟨c.history ++ data⟩)

/-- `MsZipDecompressor` state: the up-to-`0x8000`-byte dictionary of
previous decompressed output (the raw inflater is reset per block). -/
structure MsZipDecompressor where
  dictionary : Bytes
deriving Repr, DecidableEq

def MsZipDecompressor.new : MsZipDecompressor := ⟨[]⟩

inductive MsZipError where
  | badSignature
  | inflateFailed
  | wrongSize
deriving Repr, DecidableEq

/-- `MsZipDecompressor::decompress_block`: check the `CK` signature,
inflate the payload against the current dictionary, check the output
length, and update the dictionary to the last `0x8000` bytes of
concatenated output (mirroring the `drain`/`extend` logic). -/
def MsZipDecompressor.decompress_block (infl : Bytes → Bytes → Option Bytes)
    (d : MsZipDecompressor) (data : Bytes) (uncompressed_size : Nat) :
    Except MsZipError (Bytes × MsZipDecompressor) :=
  match data with
  | b0 :: b1 :: rest =>
      if (b0 ||| (b1 <<< 8)) ≠ 0x4B43 then .error .badSignature
      else
        match infl d.dictionary rest with
        | none => .error .inflateFailed
        | some out =>
            if out.length ≠ uncompressed_size then .error .wrongSize
            else
              let dict :=
                if out.length ≥ DEFLATE_MAX_DICT_LEN then
                  out.drop (out.length - DEFLATE_MAX_DICT_LEN)
                else if d.dictionary.length + out.length > DEFLATE_MAX_DICT_LEN then
                  d.dictionary.drop
                    (d.dictionary.length + out.length - DEFLATE_MAX_DICT_LEN) ++ out
                else d.dictionary ++ out
              .ok (out, ⟨dict⟩)
  | _ => .error .badSignature

/-- Compress a split of the input, `is_last_block` true exactly on the
final piece (the driver the spec and the crate's tests describe). -/
def compressPieces (defl : Bytes → Bytes → Bool → Bytes) :
    MsZipCompressor → List Bytes → List Bytes
  | _, [] => []
  | c, [p] => [(c.compress_block defl p true).1]
  | c, p :: q :: rest =>
      let r := c.compress_block defl p false
      r.1 :: compressPieces defl r.2 (q :: rest)

/-- Decompress blocks in order, passing each piece's length as
`uncompressed_size`, concatenating the outputs. -/
def decompressPieces (infl : Bytes → Bytes → Option Bytes) :
    MsZipDecompressor → List (Bytes × Nat) → Option Bytes
  | _, [] => some []
  | d, (blk, n) :: rest =>
      match d.decompress_block infl blk n with
      | .error _ => none
      | .ok (out, d2) =>
          match decompressPieces infl d2 rest with
          | none => none
          | some tail => some (out ++ tail)

theorem dictUpdate_eq_lastN (dict out : Bytes) :
    (if out.length ≥ DEFLATE_MAX_DICT_LEN then
        out.drop (out.length - DEFLATE_MAX_DICT_LEN)
      else if dict.length + out.length > DEFLATE_MAX_DICT_LEN then
        dict.drop (dict.length + out.length - DEFLATE_MAX_DICT_LEN) ++ out
      else dict ++ out) = lastN DEFLATE_MAX_DICT_LEN (dict ++ out) := by
  simp only [lastN, List.length_append]
  split_ifs with h1 h2
  · rw [List.drop_append_eq_append_drop]
    have e1 : List.drop (dict.length + out.length - DEFLATE_MAX_DICT_LEN) dict = [] := by
      apply List.drop_eq_nil_of_le
      omega
    rw [e1]
    simp only [List.nil_append]
    have e4 : dict.length + out.length - DEFLATE_MAX_DICT_LEN - dict.length =
        out.length - DEFLATE_MAX_DICT_LEN := by
      simp only [DEFLATE_MAX_DICT_LEN]
      omega
    rw [e4]
  · rw [List.drop_append_eq_append_drop]
    have e2 : dict.length + out.length - DEFLATE_MAX_DICT_LEN - dict.length = 0 := by
      omega
    rw [e2, List.drop_zero]
  · have e3 : dict.length + out.length - DEFLATE_MAX_DICT_LEN = 0 := by omega
    rw [e3, List.drop_zero]

theorem decompress_block_ok (infl : Bytes → Bytes → Option Bytes) (w rest p : Bytes)
    (hinfl : infl w rest = some p) :
    MsZipDecompressor.decompress_block infl ⟨w⟩ (0x43 :: 0x4B :: rest) p.length =
      .ok (p, ⟨lastN DEFLATE_MAX_DICT_LEN (w ++ p)⟩) := by
  rw [MsZipDecompressor.decompress_block]
  rw [hinfl]
  rw [if_neg (by decide : ¬ ((0x43 : Nat) ||| 0x4B <<< 8 ≠ 0x4B43))]
  show (if List.length p ≠ List.length p then Except.error MsZipError.wrongSize
      else
        let dict :=
          if List.length p ≥ DEFLATE_MAX_DICT_LEN then
            List.drop (List.length p - DEFLATE_MAX_DICT_LEN) p
          else if List.length w + List.length p > DEFLATE_MAX_DICT_LEN then
            List.drop (List.length w + List.length p - DEFLATE_MAX_DICT_LEN) w ++ p
          else w ++ p
        Except.ok (p, (⟨dict⟩ : MsZipDecompressor))) =
      Except.ok (p, (⟨lastN DEFLATE_MAX_DICT_LEN (w ++ p)⟩ : MsZipDecompressor))
  rw [if_neg (by simp : ¬ (List.length p ≠ List.length p))]
  show Except.ok (p, (⟨if List.length p ≥ DEFLATE_MAX_DICT_LEN then
          List.drop (List.length p - DEFLATE_MAX_DICT_LEN) p
        else if List.length w + List.length p > DEFLATE_MAX_DICT_LEN then
          List.drop (List.length w + List.length p - DEFLATE_MAX_DICT_LEN) w ++ p
        else w ++ p⟩ : MsZipDecompressor)) =
      Except.ok (p, (⟨lastN DEFLATE_MAX_DICT_LEN (w ++ p)⟩ : MsZipDecompressor))
  rw [dictUpdate_eq_lastN]

theorem decompress_compress_block (defl : Bytes → Bytes → Bool → Bytes)
    (infl : Bytes → Bytes → Option Bytes)
    (Hdefl : ∀ w d b, w.length ≤ DEFLATE_MAX_DICT_LEN → d.length ≤ DEFLATE_MAX_DICT_LEN →
      infl w (defl w d b ++ (if b then [] else [0x03, 0x00])) = some d)
    (Hstored : ∀ w d, w.length ≤ DEFLATE_MAX_DICT_LEN → d.length ≤ DEFLATE_MAX_DICT_LEN →
      infl w (0x01 :: (le16 d.length ++ le16 (not16 d.length) ++ d)) = some d)
    (hist p : Bytes) (b : Bool) (hp : p.length ≤ DEFLATE_MAX_DICT_LEN) :
    MsZipDecompressor.decompress_block infl ⟨lastN DEFLATE_MAX_DICT_LEN hist⟩
        ((MsZipCompressor.compress_block defl ⟨hist⟩ p b).1) p.length =
      .ok (p, ⟨lastN DEFLATE_MAX_DICT_LEN (hist ++ p)⟩) := by
  have hwlen : (lastN DEFLATE_MAX_DICT_LEN hist).length ≤ DEFLATE_MAX_DICT_LEN :=
    lastN_length_le _ _
  simp only [MsZipCompressor.compress_block]
  by_cases hover :
      (0x43 :: 0x4B :: (defl (lastN DEFLATE_MAX_DICT_LEN hist) p b ++
        (if b then [] else [0x03, 0x00]))).length > p.length + 7
  · rw [if_pos hover]
    rw [decompress_block_ok infl _ _ p
      (Hstored (lastN DEFLATE_MAX_DICT_LEN hist) p hwlen hp)]
    rw [lastN_append_lastN]
  · rw [if_neg hover]
    rw [decompress_block_ok infl _ _ p
      (Hdefl (lastN DEFLATE_MAX_DICT_LEN hist) p b hwlen hp)]
    rw [lastN_append_lastN]

theorem decompressPieces_cons_ok (infl : Bytes → Bytes → Option Bytes)
    (d : MsZipDecompressor) (blk : Bytes) (n : Nat) (rest : List (Bytes × Nat))
    (out : Bytes) (d2 : MsZipDecompressor)
    (h : d.decompress_block infl blk n = .ok (out, d2)) :
    decompressPieces infl d ((blk, n) :: rest) =
      match decompressPieces infl d2 rest with
      | none => none
      | some tail => some (out ++ tail) := by
  rw [decompressPieces]
  rw [h]

theorem mszip_round_trip_aux (defl : Bytes → Bytes → Bool → Bytes)
    (infl : Bytes → Bytes → Option Bytes)
    (Hdefl : ∀ w d b, w.length ≤ DEFLATE_MAX_DICT_LEN → d.length ≤ DEFLATE_MAX_DICT_LEN →
      infl w (defl w d b ++ (if b then [] else [0x03, 0x00])) = some d)
    (Hstored : ∀ w d, w.length ≤ DEFLATE_MAX_DICT_LEN → d.length ≤ DEFLATE_MAX_DICT_LEN →
      infl w (0x01 :: (le16 d.length ++ le16 (not16 d.length) ++ d)) = some d) :
    ∀ (pieces : List Bytes) (hist : Bytes),
      (∀ p ∈ pieces, p.length ≤ DEFLATE_MAX_DICT_LEN) →
      decompressPieces infl ⟨lastN DEFLATE_MAX_DICT_LEN hist⟩
          ((compressPieces defl ⟨hist⟩ pieces).zip (pieces.map List.length)) =
        some pieces.flatten := by
  intro pieces
  induction pieces with
  | nil =>
      intro hist hp
      simp [compressPieces, decompressPieces]
  | cons p rest ih =>
      intro hist hp
      have hplen : p.length ≤ DEFLATE_MAX_DICT_LEN := hp p (by simp)
      cases rest with
      | nil =>
          simp only [compressPieces, List.map, List.zip_cons_cons, List.zip_nil_right]
          rw [decompressPieces_cons_ok infl _ _ _ _ p ⟨lastN DEFLATE_MAX_DICT_LEN (hist ++ p)⟩
            (decompress_compress_block defl infl Hdefl Hstored hist p true hplen)]
          simp [decompressPieces]
      | cons q rest2 =>
          simp only [compressPieces, List.map, List.zip_cons_cons]
          have h2 : (MsZipCompressor.compress_block defl ⟨hist⟩ p false).2 =
              ⟨hist ++ p⟩ := rfl
          rw [h2]
          rw [decompressPieces_cons_ok infl _ _ _ _ p ⟨lastN DEFLATE_MAX_DICT_LEN (hist ++ p)⟩
            (decompress_compress_block defl infl Hdefl Hstored hist p false hplen)]
          have hrest : ∀ r ∈ q :: rest2, r.length ≤ DEFLATE_MAX_DICT_LEN := by
            intro r hr
            exact hp r (by simp [hr])
          have ih2 := ih (hist ++ p) hrest
          simp only [List.map_cons] at ih2
          rw [ih2]
          simp

/-- C1: MSZIP round-trip.  For any deflate engine satisfying its inverse
contract (`Hdefl` for live-stream output with the block terminator,
`Hstored` for raw stored blocks), compressing any splitting of a byte
sequence into at-most-`0x8000`-byte pieces with `compress_block`
(`is_last_block` true exactly on the final piece) and decompressing each
block in order with `decompress_block` (passing each piece's length as
`uncompressed_size`) reproduces the sequence byte-for-byte; the
decompressor's dictionary threading resolves cross-block back-references
(the window equals the compressor's history window at every block). -/
theorem mszip_round_trip (defl : Bytes → Bytes → Bool → Bytes)
    (infl : Bytes → Bytes → Option Bytes)
    (Hdefl : ∀ w d b, w.length ≤ DEFLATE_MAX_DICT_LEN → d.length ≤ DEFLATE_MAX_DICT_LEN →
      infl w (defl w d b ++ (if b then [] else [0x03, 0x00])) = some d)
    (Hstored : ∀ w d, w.length ≤ DEFLATE_MAX_DICT_LEN → d.length ≤ DEFLATE_MAX_DICT_LEN →
      infl w (0x01 :: (le16 d.length ++ le16 (not16 d.length) ++ d)) = some d)
    (pieces : List Bytes)
    (hpieces : ∀ p ∈ pieces, p.length ≤ DEFLATE_MAX_DICT_LEN) :
    decompressPieces infl MsZipDecompressor.new
        ((compressPieces defl MsZipCompressor.new pieces).zip (pieces.map List.length)) =
      some pieces.flatten := by
  have := mszip_round_trip_aux defl infl Hdefl Hstored pieces [] hpieces
  simpa [lastN, MsZipDecompressor.new, MsZipCompressor.new] using this

/-- A concrete codec standing in for the abstract deflate engine in
witnesses: it emits only raw stored blocks. -/
def defl0 (w data : Bytes) (is_last : Bool) : Bytes :=
  0x01 :: (le16 data.length ++ le16 (not16 data.length) ++ data)

/-- The matching concrete inflater: parse one stored block header and
return its payload (ignoring any trailing terminator bytes). -/
def infl0 (w data : Bytes) : Option Bytes :=
  match data with
  | 1 :: a :: b :: a2 :: b2 :: rest =>
      if a2 = 255 - a ∧ b2 = 255 - b ∧ a + 256 * b ≤ rest.length then
        some (rest.take (a + 256 * b))
      else none
  | _ => none

theorem infl0_parses (w d t : Bytes) (hd : d.length ≤ DEFLATE_MAX_DICT_LEN) :
    infl0 w (0x01 :: (le16 d.length ++ le16 (not16 d.length) ++ (d ++ t))) = some d := by
  have hlen : d.length ≤ 32768 := hd
  simp only [le16, not16, infl0, List.cons_append, List.nil_append, List.append_assoc]
  rw [if_pos]
  · have hn : d.length % 256 + 256 * (d.length / 256 % 256) = d.length := by omega
    rw [hn]
    congr 1
    rw [List.take_left' rfl]
  · refine ⟨by omega, by omega, ?_⟩
    have : d.length % 256 + 256 * (d.length / 256 % 256) = d.length := by omega
    rw [this]
    simp

theorem infl0_defl0 : ∀ (w d : Bytes) (b : Bool),
    w.length ≤ DEFLATE_MAX_DICT_LEN → d.length ≤ DEFLATE_MAX_DICT_LEN →
    infl0 w (defl0 w d b ++ (if b then [] else [0x03, 0x00])) = some d := by
  intro w d b hw hd
  have := infl0_parses w d (if b then [] else [0x03, 0x00]) hd
  simpa [defl0, List.cons_append, List.append_assoc] using this

theorem infl0_stored : ∀ (w d : Bytes),
    w.length ≤ DEFLATE_MAX_DICT_LEN → d.length ≤ DEFLATE_MAX_DICT_LEN →
    infl0 w (0x01 :: (le16 d.length ++ le16 (not16 d.length) ++ d)) = some d := by
  intro w d hw hd
  have := infl0_parses w d [] hd
  simpa using this

/-- Witness for C1: the concrete stored-block codec satisfies the deflate
contract, and round-tripping the split `[[10, 20], [30]]` reproduces
`[10, 20, 30]`. -/
theorem mszip_round_trip_witness :
    decompressPieces infl0 MsZipDecompressor.new
        ((compressPieces defl0 MsZipCompressor.new [[10, 20], [30]]).zip
          ([[10, 20], [30]].map List.length)) = some [10, 20, 30] := by
  have := mszip_round_trip defl0 infl0 infl0_defl0 infl0_stored [[10, 20], [30]]
    (by decide)
  simpa using this

/-- C6: the output of `compress_block` never exceeds `input_len + 7`
bytes; whenever the deflate-produced output (signature, body and
terminator) would exceed that bound, the returned block is exactly
`CK`, `0x01`, the length as little-endian `u16`, its ones' complement,
then the raw input. -/
theorem compress_block_expansion_fallback (defl : Bytes → Bytes → Bool → Bytes)
    (c : MsZipCompressor) (data : Bytes) (is_last_block : Bool)
    (h : data.length ≤ DEFLATE_MAX_DICT_LEN) :
    ((c.compress_block defl data is_last_block).1.length ≤ data.length + 7) ∧
    ((0x43 :: 0x4B :: (defl (lastN DEFLATE_MAX_DICT_LEN c.history) data is_last_block ++
        (if is_last_block then [] else [0x03, 0x00]))).length > data.length + 7 →
      (c.compress_block defl data is_last_block).1 =
        0x43 :: 0x4B :: 0x01 :: (le16 data.length ++ le16 (not16 data.length) ++ data)) := by
  simp only [MsZipCompressor.compress_block]
  by_cases hover :
      (0x43 :: 0x4B :: (defl (lastN DEFLATE_MAX_DICT_LEN c.history) data is_last_block ++
        (if is_last_block then [] else [0x03, 0x00]))).length > data.length + 7
  · rw [if_pos hover]
    refine ⟨?_, fun _ => rfl⟩
    simp [le16]
  · rw [if_neg hover]
    refine ⟨by omega, fun hc => absurd hc hover⟩

/-- Witness for C6 at a concrete input where the fallback fires. -/
theorem compress_block_expansion_fallback_witness :
    ([10, 20, 30] : Bytes).length ≤ DEFLATE_MAX_DICT_LEN ∧
    (0x43 :: 0x4B :: (defl0 (lastN DEFLATE_MAX_DICT_LEN MsZipCompressor.new.history)
        [10, 20, 30] false ++ [0x03, 0x00])).length > ([10, 20, 30] : Bytes).length + 7 ∧
    ((MsZipCompressor.new.compress_block defl0 [10, 20, 30] false).1.length ≤
      ([10, 20, 30] : Bytes).length + 7) ∧
    (MsZipCompressor.new.compress_block defl0 [10, 20, 30] false).1 =
      0x43 :: 0x4B :: 0x01 :: (le16 3 ++ le16 (not16 3) ++ [10, 20, 30]) :=
  ⟨by decide, by decide,
   (compress_block_expansion_fallback defl0 MsZipCompressor.new [10, 20, 30] false
      (by decide)).1,
   (compress_block_expansion_fallback defl0 MsZipCompressor.new [10, 20, 30] false
      (by decide)).2 (by decide)⟩

/-! ### `src/builder.rs`: `FolderWriter` and `FileWriter`

The folder compressor (`FolderCompressor`) is either the identity
(uncompressed) or the MSZIP compressor; both are instances of an
abstract `comp : σ → Bytes → Bool → Bytes × σ`, over which the writer
state machine is defined. -/

def MAX_UNCOMPRESSED_BLOCK_SIZE : Nat := 0x8000

def MAX_FILE_SIZE : Nat := 0x7fff8000

/-- One data block as emitted by `FolderWriter::write_data_block`:
the on-disk header fields plus (for specification purposes) the
uncompressed bytes it was built from and the flush flag. -/
structure EmittedBlock where
  checksum_value : Nat
  compressed_size : Nat
  uncompressed_size : Nat
  uncompressed_data : Bytes
  is_last : Bool
deriving Repr, DecidableEq, Inhabited

/-- `FolderWriter` state: the live compressor, the `0x8000`-byte staging
buffer, and the blocks written out so far. -/
structure FolderWriterSt (σ : Type) where
  compressor : σ
  data_block_buffer : Bytes
  blocks : List EmittedBlock
deriving Repr, DecidableEq

def FolderWriterSt.init {σ : Type} (c0 : σ) : FolderWriterSt σ := ⟨c0, [], []⟩

/-- `FolderWriter::write_data_block`: compress the buffered bytes,
compute the block checksum over the compressed payload XORed with
`(compressed_size | (uncompressed_size << 16))`, emit the block, and
clear the buffer. -/
def FolderWriterSt.write_data_block {σ : Type} (comp : σ → Bytes → Bool → Bytes × σ)
    (st : FolderWriterSt σ) (is_last_block : Bool) : FolderWriterSt σ :=
  let uncompressed_size := st.data_block_buffer.length % 65536
  let r := comp st.compressor st.data_block_buffer is_last_block
  let compressed_size := r.1.length % 65536
  let checksum_value :=
    (Checksum.new.update r.1).finalValue ^^^ (compressed_size ||| (uncompressed_size <<< 16))
  { compressor := r.2, data_block_buffer := [],
    blocks := st.blocks ++
      [⟨checksum_value, compressed_size, uncompressed_size, st.data_block_buffer,
        is_last_block⟩] }

/-- `<FolderWriter as Write>::write`: flush a (non-final) block only when
the staging buffer is completely full, then accept up to the buffer's
remaining capacity. -/
def FolderWriterSt.write {σ : Type} (comp : σ → Bytes → Bool → Bytes × σ)
    (st : FolderWriterSt σ) (buf : Bytes) : FolderWriterSt σ × Nat :=
  if buf = [] then (st, 0)
  else
    let st :=
      if st.data_block_buffer.length = MAX_UNCOMPRESSED_BLOCK_SIZE then
        st.write_data_block comp false
      else st
    let max_bytes := min buf.length (MAX_UNCOMPRESSED_BLOCK_SIZE - st.data_block_buffer.length)
    ({ st with data_block_buffer := st.data_block_buffer ++ buf.take max_bytes }, max_bytes)

/-- The block-flush part of `FolderWriter::finish`: emit a final block
iff the staging buffer is non-empty. -/
def FolderWriterSt.finish {σ : Type} (comp : σ → Bytes → Bool → Bytes × σ)
    (st : FolderWriterSt σ) : FolderWriterSt σ :=
  if st.data_block_buffer = [] then st else st.write_data_block comp true

/-- A sequence of `write` calls against a folder writer. -/
def runFolderWrites {σ : Type} (comp : σ → Bytes → Bool → Bytes × σ) :
    FolderWriterSt σ → List Bytes → FolderWriterSt σ
  | st, [] => st
  | st, b :: rest => runFolderWrites comp (st.write comp b).1 rest

/-- Invariant between `write` calls: the buffer fits, and every block
emitted so far is a full non-final block. -/
def FolderWriterSt.MidInv {σ : Type} (st : FolderWriterSt σ) : Prop :=
  st.data_block_buffer.length ≤ MAX_UNCOMPRESSED_BLOCK_SIZE ∧
  ∀ blk ∈ st.blocks,
    blk.uncompressed_size = MAX_UNCOMPRESSED_BLOCK_SIZE ∧ blk.is_last = false

theorem midInv_write {σ : Type} (comp : σ → Bytes → Bool → Bytes × σ)
    (st : FolderWriterSt σ) (buf : Bytes) (h : st.MidInv) :
    (st.write comp buf).1.MidInv := by
  obtain ⟨hlen, hblks⟩ := h
  simp only [FolderWriterSt.write]
  by_cases hb : buf = []
  · simp only [hb, if_true]
    exact ⟨hlen, hblks⟩
  · rw [if_neg hb]
    by_cases hfull : st.data_block_buffer.length = MAX_UNCOMPRESSED_BLOCK_SIZE
    · rw [if_pos hfull]
      constructor
      · simp only [FolderWriterSt.write_data_block, List.length_append, List.length_nil,
          List.length_take]
        omega
      · intro blk hblk
        simp only [FolderWriterSt.write_data_block, List.mem_append, List.mem_singleton] at hblk
        rcases hblk with hblk | hblk
        · exact hblks blk hblk
        · subst hblk
          refine ⟨?_, rfl⟩
          simp only [hfull]
          decide
    · rw [if_neg hfull]
      constructor
      · simp only [List.length_append, List.length_take]
        omega
      · exact hblks

theorem midInv_run {σ : Type} (comp : σ → Bytes → Bool → Bytes × σ)
    (ws : List Bytes) : ∀ (st : FolderWriterSt σ), st.MidInv →
    (runFolderWrites comp st ws).MidInv := by
  induction ws with
  | nil => intro st h; exact h
  | cons b rest ih =>
      intro st h
      exact ih _ (midInv_write comp st b h)

/-- C9: after any sequence of writes and the folder-end flush, every
emitted block is non-empty and at most `0x8000` bytes of uncompressed
data, every block flushed as non-final is exactly `0x8000` bytes (the
buffer was completely full), and every block except possibly the last
is exactly `0x8000` bytes. -/
theorem folder_writer_block_sizes {σ : Type} (comp : σ → Bytes → Bool → Bytes × σ)
    (c0 : σ) (ws : List Bytes) :
    (∀ blk ∈ ((runFolderWrites comp (FolderWriterSt.init c0) ws).finish comp).blocks,
      0 < blk.uncompressed_size ∧
      blk.uncompressed_size ≤ MAX_UNCOMPRESSED_BLOCK_SIZE ∧
      (blk.is_last = false → blk.uncompressed_size = MAX_UNCOMPRESSED_BLOCK_SIZE)) ∧
    (∀ blk ∈ ((runFolderWrites comp (FolderWriterSt.init c0) ws).finish comp).blocks.dropLast,
      blk.uncompressed_size = MAX_UNCOMPRESSED_BLOCK_SIZE) := by
  have hinv : (runFolderWrites comp (FolderWriterSt.init c0) ws).MidInv :=
    midInv_run comp ws _ (by exact ⟨by simp [FolderWriterSt.init], by simp [FolderWriterSt.init]⟩)
  set pre := runFolderWrites comp (FolderWriterSt.init c0) ws with hpre
  obtain ⟨hlen, hblks⟩ := hinv
  simp only [FolderWriterSt.finish]
  by_cases hemp : pre.data_block_buffer = []
  · rw [if_pos hemp]
    constructor
    · intro blk hblk
      obtain ⟨h1, h2⟩ := hblks blk hblk
      refine ⟨by rw [h1]; decide, by rw [h1], fun _ => h1⟩
    · intro blk hblk
      exact (hblks blk (List.dropLast_subset _ hblk)).1
  · rw [if_neg hemp]
    have hbuf1 : 0 < pre.data_block_buffer.length := List.length_pos.mpr hemp
    have husz : pre.data_block_buffer.length % 65536 = pre.data_block_buffer.length := by
      have : MAX_UNCOMPRESSED_BLOCK_SIZE < 65536 := by decide
      omega
    constructor
    · intro blk hblk
      simp only [FolderWriterSt.write_data_block, List.mem_append, List.mem_singleton] at hblk
      rcases hblk with hblk | hblk
      · obtain ⟨h1, h2⟩ := hblks blk hblk
        refine ⟨by rw [h1]; decide, by rw [h1], fun _ => h1⟩
      · subst hblk
        simp only
        rw [husz]
        exact ⟨hbuf1, hlen, fun hfalse => by cases hfalse⟩
    · intro blk hblk
      simp only [FolderWriterSt.write_data_block, List.dropLast_concat] at hblk
      exact (hblks blk hblk).1

/-- The compressor used in witnesses: the identity (the `Uncompressed`
arm of `FolderCompressor`). -/
def comp0 : Unit → Bytes → Bool → Bytes × Unit := fun _ d _ => (d, ())

/-- Witness for C9: one three-byte write producing a single final block. -/
theorem folder_writer_block_sizes_witness :
    (((runFolderWrites comp0 (FolderWriterSt.init ()) [[1, 2, 3]]).finish comp0).blocks.getD 0
        default) ∈
      ((runFolderWrites comp0 (FolderWriterSt.init ()) [[1, 2, 3]]).finish comp0).blocks ∧
    (0 < (((runFolderWrites comp0 (FolderWriterSt.init ()) [[1, 2, 3]]).finish
        comp0).blocks.getD 0 default).uncompressed_size ∧
      (((runFolderWrites comp0 (FolderWriterSt.init ()) [[1, 2, 3]]).finish
        comp0).blocks.getD 0 default).uncompressed_size ≤ MAX_UNCOMPRESSED_BLOCK_SIZE ∧
      ((((runFolderWrites comp0 (FolderWriterSt.init ()) [[1, 2, 3]]).finish
        comp0).blocks.getD 0 default).is_last = false →
        (((runFolderWrites comp0 (FolderWriterSt.init ()) [[1, 2, 3]]).finish
          comp0).blocks.getD 0 default).uncompressed_size = MAX_UNCOMPRESSED_BLOCK_SIZE)) :=
  ⟨by decide,
   (folder_writer_block_sizes comp0 () [[1, 2, 3]]).1 _ (by decide)⟩

/-- The error kind of `invalid_input!` in `FileWriter::write`. -/
inductive WriteError where
  | invalidInput
deriving Repr, DecidableEq

/-- `FileWriter` state: the underlying folder writer plus the file's
recorded `uncompressed_size` (a `u32`). -/
structure FileWriterSt (σ : Type) where
  folder : FolderWriterSt σ
  uncompressed_size : Nat
deriving Repr, DecidableEq

/-- `<FileWriter as Write>::write`: empty writes return `Ok(0)`; a write
at exactly the `0x7FFF8000`-byte cap fails with `InvalidInput`; otherwise
the request is truncated to the remaining capacity and passed to the
folder writer, whose acceptance count is added to the recorded size. -/
def FileWriterSt.write {σ : Type} (comp : σ → Bytes → Bool → Bytes × σ)
    (st : FileWriterSt σ) (buf : Bytes) : Except WriteError (FileWriterSt σ × Nat) :=
  if buf = [] then .ok (st, 0)
  else if st.uncompressed_size = MAX_FILE_SIZE then .error .invalidInput
  else
    let remaining := MAX_FILE_SIZE - st.uncompressed_size
    let max_bytes := min buf.length remaining
    let r := st.folder.write comp (buf.take max_bytes)
    .ok ({ folder := r.1, uncompressed_size := st.uncompressed_size + r.2 }, r.2)

theorem folder_write_accepts {σ : Type} (comp : σ → Bytes → Bool → Bytes × σ)
    (st : FolderWriterSt σ) (buf : Bytes)
    (hb : st.data_block_buffer.length ≤ MAX_UNCOMPRESSED_BLOCK_SIZE) (hne : buf ≠ []) :
    1 ≤ (st.write comp buf).2 ∧ (st.write comp buf).2 ≤ buf.length := by
  have hbuf1 : 0 < buf.length := List.length_pos.mpr hne
  simp only [FolderWriterSt.write, if_neg hne]
  by_cases hfull : st.data_block_buffer.length = MAX_UNCOMPRESSED_BLOCK_SIZE
  · rw [if_pos hfull]
    have : (st.write_data_block comp false).data_block_buffer = [] := rfl
    rw [this]
    simp only [List.length_nil]
    constructor
    · have : (0 : Nat) < MAX_UNCOMPRESSED_BLOCK_SIZE := by decide
      omega
    · omega
  · rw [if_neg hfull]
    constructor
    · have : 0 < MAX_UNCOMPRESSED_BLOCK_SIZE - st.data_block_buffer.length := by omega
      omega
    · omega

/-- C10: `FileWriter::write` enforces the `0x7FFF8000`-byte cap by
partial acceptance: an empty write returns `Ok(0)`; a non-empty write at
a size strictly below the cap succeeds, accepting at least one byte and
at most the bytes up to the cap (never carrying the recorded size past
it); only a non-empty write at exactly the cap fails with
`InvalidInput`, leaving the state unchanged. -/
theorem file_writer_cap {σ : Type} (comp : σ → Bytes → Bool → Bytes × σ)
    (st : FileWriterSt σ) (buf : Bytes)
    (hfold : st.folder.data_block_buffer.length ≤ MAX_UNCOMPRESSED_BLOCK_SIZE) :
    (buf = [] → st.write comp buf = .ok (st, 0)) ∧
    (buf ≠ [] → st.uncompressed_size = MAX_FILE_SIZE →
      st.write comp buf = .error .invalidInput) ∧
    (buf ≠ [] → st.uncompressed_size < MAX_FILE_SIZE →
      ∃ st2 n, st.write comp buf = .ok (st2, n) ∧ 1 ≤ n ∧ n ≤ buf.length ∧
        n ≤ MAX_FILE_SIZE - st.uncompressed_size ∧
        st2.uncompressed_size = st.uncompressed_size + n ∧
        st2.uncompressed_size ≤ MAX_FILE_SIZE) := by
  refine ⟨fun hb => by simp [FileWriterSt.write, hb], fun hb hcap => by
    simp [FileWriterSt.write, hb, hcap], fun hb hlt => ?_⟩
  have hne : buf.take (min buf.length (MAX_FILE_SIZE - st.uncompressed_size)) ≠ [] := by
    have h1 : 0 < buf.length := List.length_pos.mpr hb
    have h2 : 0 < MAX_FILE_SIZE - st.uncompressed_size := by omega
    intro hcontra
    have := congrArg List.length hcontra
    simp only [List.length_take, List.length_nil] at this
    omega
  have hacc := folder_write_accepts comp st.folder
    (buf.take (min buf.length (MAX_FILE_SIZE - st.uncompressed_size))) hfold hne
  have hcapne : ¬ st.uncompressed_size = MAX_FILE_SIZE := by omega
  refine ⟨⟨(st.folder.write comp
        (buf.take (min buf.length (MAX_FILE_SIZE - st.uncompressed_size)))).1,
      st.uncompressed_size + (st.folder.write comp
        (buf.take (min buf.length (MAX_FILE_SIZE - st.uncompressed_size)))).2⟩,
    (st.folder.write comp
      (buf.take (min buf.length (MAX_FILE_SIZE - st.uncompressed_size)))).2,
    ?_, hacc.1, ?_, ?_, rfl, ?_⟩
  · simp only [FileWriterSt.write, if_neg hb, if_neg hcapne]
  · have := hacc.2
    simp only [List.length_take] at this
    omega
  · have := hacc.2
    simp only [List.length_take] at this
    omega
  · have := hacc.2
    simp only [List.length_take] at this
    show st.uncompressed_size + (st.folder.write comp
      (buf.take (min buf.length (MAX_FILE_SIZE - st.uncompressed_size)))).2 ≤ MAX_FILE_SIZE
    omega

/-- Witness for C10: a one-byte write into an empty file is accepted,
and a one-byte write at exactly the cap fails. -/
theorem file_writer_cap_witness :
    ((([7] : Bytes) ≠ [] ∧ (0 : Nat) < MAX_FILE_SIZE) ∧
      ∃ st2 n, FileWriterSt.write comp0 ⟨FolderWriterSt.init (), 0⟩ [7] = .ok (st2, n) ∧
        1 ≤ n ∧ n ≤ ([7] : Bytes).length ∧ n ≤ MAX_FILE_SIZE - 0 ∧
        st2.uncompressed_size = 0 + n ∧ st2.uncompressed_size ≤ MAX_FILE_SIZE) ∧
    FileWriterSt.write comp0 ⟨FolderWriterSt.init (), MAX_FILE_SIZE⟩ [7] =
      .error .invalidInput :=
  ⟨⟨⟨by decide, by decide⟩,
    (file_writer_cap comp0 ⟨FolderWriterSt.init (), 0⟩ [7] (by decide)).2.2
      (by decide) (by decide)⟩,
   (file_writer_cap comp0 ⟨FolderWriterSt.init (), MAX_FILE_SIZE⟩ [7] (by decide)).2.1
      (by decide) rfl⟩

/-! ### `src/folder.rs`: `FolderReader`

The byte source (`Cabinet`'s inner reader) is an in-memory byte list with
explicit positions.  The per-folder decompressor (`FolderDecompressor`)
is abstracted as `DecompImpl`: `Uncompressed` is the identity, `MsZip`
is the embedded `decompress_block`; the LZX arm (external `lzxd` crate)
and the rejected Quantum arm are outside the scope of these claims. -/

inductive CabError where
  | checksumMismatch (block_index : Nat) (expected : Nat) (actual : Nat)
  | invalidData
  | readFailed
  | invalidInput
  | indexPanic
deriving Repr, DecidableEq

/-- `read_u16::<LittleEndian>` from an in-memory source. -/
def readU16 (bytes : Bytes) (pos : Nat) : Option (Nat × Nat) :=
  match bytes.get? pos, bytes.get? (pos + 1) with
  | some a, some b => some (a + 256 * b, pos + 2)
  | _, _ => none

/-- `read_u32::<LittleEndian>` from an in-memory source. -/
def readU32 (bytes : Bytes) (pos : Nat) : Option (Nat × Nat) :=
  match bytes.get? pos, bytes.get? (pos + 1), bytes.get? (pos + 2), bytes.get? (pos + 3) with
  | some a, some b, some c, some d =>
      some (a + 256 * b + 65536 * c + 16777216 * d, pos + 4)
  | _, _, _, _ => none

/-- `read_exact` into an `n`-byte buffer. -/
def readExact (bytes : Bytes) (pos n : Nat) : Option (Bytes × Nat) :=
  if pos + n ≤ bytes.length then some ((bytes.drop pos).take n, pos + n) else none

/-- One on-disk data-block entry (`DataBlockEntry`). -/
structure DataBlockEntry where
  checksum : Nat
  compressed_size : Nat
  uncompressed_size : Nat
  reserve_data : Bytes
  data_offset : Nat
  cumulative_size : Nat
deriving Repr, DecidableEq, Inhabited

/-- `parse_block_entry`: read the 8-byte header and the reserve bytes,
record the payload position, and seek over the payload. -/
def parse_block_entry (bytes : Bytes) (pos : Nat) (cumulative_size : Nat)
    (data_reserve_size : Nat) : Option (DataBlockEntry × Nat) :=
  match readU32 bytes pos with
  | none => none
  | some (checksum, pos1) =>
  match readU16 bytes pos1 with
  | none => none
  | some (compressed_size, pos2) =>
  match readU16 bytes pos2 with
  | none => none
  | some (uncompressed_size, pos3) =>
  match readExact bytes pos3 data_reserve_size with
  | none => none
  | some (reserve_data, pos4) =>
      some (⟨checksum, compressed_size, uncompressed_size, reserve_data, pos4,
        cumulative_size + uncompressed_size⟩, pos4 + compressed_size)

/-- The block-headers loop in `FolderReader::new`: parse `n` entries in
sequence, accumulating `total_size`. -/
def parseBlocks (bytes : Bytes) (data_reserve_size : Nat) :
    Nat → Nat → Nat → Option (List DataBlockEntry × Nat × Nat)
  | 0, pos, total => some ([], total, pos)
  | n + 1, pos, total =>
      match parse_block_entry bytes pos total data_reserve_size with
      | none => none
      | some (blk, pos2) =>
          match parseBlocks bytes data_reserve_size n pos2 (total + blk.uncompressed_size) with
          | none => none
          | some (rest, total2, pos3) => some (blk :: rest, total2, pos3)

/-- The per-folder decompressor interface (`FolderDecompressor`). -/
structure DecompImpl (D : Type) where
  decompress : D → Bytes → Nat → Except CabError (Bytes × D)

/-- The `Uncompressed` arm: the block payload is the block data. -/
def uncompressedImpl : DecompImpl Unit :=
  ⟨fun _ data _ => .ok (data, ())⟩

/-- The `MsZip` arm, over an abstract inflater. -/
def mszipImpl (infl : Bytes → Bytes → Option Bytes) : DecompImpl MsZipDecompressor :=
  ⟨fun d data n =>
    match d.decompress_block infl data n with
    | .error _ => .error .invalidData
    | .ok r => .ok r⟩

/-- `FolderReader` state. -/
structure FolderReaderSt (D : Type) where
  decompressor : D
  total_size : Nat
  data_blocks : List DataBlockEntry
  current_block_index : Nat
  current_block_data : Bytes
  current_offset_within_block : Nat
  current_offset_within_folder : Nat
deriving Repr, DecidableEq

/-- `FolderReader::current_block_start`.  Rust indexes
`data_blocks[current_block_index - 1]`, which the reader invariant keeps
in bounds; out of bounds it would panic, modelled by `getD default`. -/
def current_block_start {D : Type} (st : FolderReaderSt D) : Nat :=
  if st.current_block_index = 0 then 0
  else ((st.data_blocks.get? (st.current_block_index - 1)).getD default).cumulative_size

/-- `FolderReader::load_block`: past the last block, clear the data;
otherwise read the payload, verify the checksum unless the stored value
is 0, and decompress. -/
def load_block {D : Type} (impl : DecompImpl D) (bytes : Bytes)
    (st : FolderReaderSt D) : Except CabError (FolderReaderSt D) :=
  if h : st.current_block_index < st.data_blocks.length then
    let block := st.data_blocks.get ⟨st.current_block_index, h⟩
    match readExact bytes block.data_offset block.compressed_size with
    | none => .error .readFailed
    | some (compressed_data, _) =>
        let check : Except CabError Unit :=
          if block.checksum ≠ 0 then
            let actual_checksum :=
              ((Checksum.new.update block.reserve_data).update compressed_data).finalValue ^^^
                (block.compressed_size ||| (block.uncompressed_size <<< 16))
            if actual_checksum ≠ block.checksum then
              .error (.checksumMismatch st.current_block_index block.checksum actual_checksum)
            else .ok ()
          else .ok ()
        match check with
        | .error e => .error e
        | .ok _ =>
            match impl.decompress st.decompressor compressed_data block.uncompressed_size with
            | .error e => .error e
            | .ok (out, d2) =>
                .ok { st with current_block_data := out, decompressor := d2 }
  else .ok { st with current_block_data := [] }

/-- `FolderReader::rewind`: zero the offsets and, when not already at
block 0, jump back to block 0 and reload it.  The decompressor state is
left as-is (the source has no reset call here). -/
def rewind {D : Type} (impl : DecompImpl D) (bytes : Bytes)
    (st : FolderReaderSt D) : Except CabError (FolderReaderSt D) :=
  let st : FolderReaderSt D :=
    { st with current_offset_within_block := 0, current_offset_within_folder := 0 }
  if st.current_block_index ≠ 0 then
    load_block impl bytes { st with current_block_index := 0 }
  else .ok st

/-- The `while` loop in `seek`: advance and load until the current
block's cumulative size reaches the target.  `fuel` bounds the
iterations (`data_blocks.length + 1` at the call site); exhausting it,
or indexing past the end, models the Rust index panic. -/
def fastForward {D : Type} (impl : DecompImpl D) (bytes : Bytes) (new_offset : Nat) :
    Nat → FolderReaderSt D → Except CabError (FolderReaderSt D)
  | 0, _ => .error .indexPanic
  | fuel + 1, st =>
      if h : st.current_block_index < st.data_blocks.length then
        if (st.data_blocks.get ⟨st.current_block_index, h⟩).cumulative_size < new_offset then
          match load_block impl bytes
              { st with current_block_index := st.current_block_index + 1 } with
          | .error e => .error e
          | .ok st2 => fastForward impl bytes new_offset fuel st2
        else .ok st
      else .error .indexPanic

inductive SeekFrom where
  | start (offset : Nat)
  | current (delta : Int)
  | fromEnd (delta : Int)
deriving Repr, DecidableEq

/-- `<FolderReader as Seek>::seek`. -/
def folderSeek {D : Type} (impl : DecompImpl D) (bytes : Bytes)
    (st : FolderReaderSt D) (pos : SeekFrom) :
    Except CabError (Nat × FolderReaderSt D) :=
  let new_offset : Int :=
    match pos with
    | .start offset => (offset : Int)
    | .current delta => (st.current_offset_within_folder : Int) + delta
    | .fromEnd delta => (st.total_size : Int) + delta
  if new_offset < 0 ∨ (st.total_size : Int) < new_offset then .error .invalidInput
  else
    let t := new_offset.toNat
    match (if t < current_block_start st then rewind impl bytes st else .ok st) with
    | .error e => .error e
    | .ok st1 =>
        match (if 0 < t then fastForward impl bytes t (st1.data_blocks.length + 1) st1
          else .ok st1) with
        | .error e => .error e
        | .ok st2 =>
            .ok (t, { st2 with
              current_offset_within_block := t - current_block_start st2,
              current_offset_within_folder := t })

/-- `<FolderReader as Read>::read` with an `n`-byte buffer. -/
def folderRead {D : Type} (impl : DecompImpl D) (bytes : Bytes)
    (st : FolderReaderSt D) (n : Nat) :
    Except CabError (Bytes × FolderReaderSt D) :=
  if n = 0 ∨ st.data_blocks.length ≤ st.current_block_index then .ok ([], st)
  else
    match (if st.current_offset_within_block = st.current_block_data.length then
        load_block impl bytes
          { st with
            current_block_index := st.current_block_index + 1,
            current_offset_within_block := 0 }
      else .ok st) with
    | .error e => .error e
    | .ok st1 =>
        let max_bytes :=
          min n (st1.current_block_data.length - st1.current_offset_within_block)
        .ok ((st1.current_block_data.drop st1.current_offset_within_block).take max_bytes,
          { st1 with
            current_offset_within_block := st1.current_offset_within_block + max_bytes,
            current_offset_within_folder := st1.current_offset_within_folder + max_bytes })

/-- The `_FolderEntry` fields `FolderReader::new` reads. -/
structure FolderEntryInfo where
  first_data_block_offset : Nat
  num_data_blocks : Nat
deriving Repr, DecidableEq

/-- `FolderReader::new`: parse ALL `num_data_blocks` block headers up
front (seeking over each payload), then load block 0.  The
compression-type match constructing the decompressor is abstracted into
`(impl, d0)`. -/
def FolderReader.new {D : Type} (impl : DecompImpl D) (d0 : D) (bytes : Bytes)
    (entry : FolderEntryInfo) (data_reserve_size : Nat) :
    Except CabError (FolderReaderSt D) :=
  match parseBlocks bytes data_reserve_size entry.num_data_blocks
      entry.first_data_block_offset 0 with
  | none => .error .readFailed
  | some (data_blocks, total_size, _) =>
      load_block impl bytes
        { decompressor := d0, total_size := total_size, data_blocks := data_blocks,
          current_block_index := 0, current_block_data := [],
          current_offset_within_block := 0, current_offset_within_folder := 0 }

/-- The seek path as the specification words it, for comparison with the
code: identical to `folderSeek` except that a backward seek resets the
decompressor state (to `dreset`, a fresh decompressor) before rewinding
to block 0 and fast-forwarding.  Modelled from the spec: "`seek(pos)`
rewinds the folder decoder to block 0 if target is earlier than the
current block-start, resets the decompressor state, then fast-forwards
by loading intermediate blocks until the target block is current." -/
def folderSeek_spec {D : Type} (impl : DecompImpl D) (dreset : D) (bytes : Bytes)
    (st : FolderReaderSt D) (pos : SeekFrom) :
    Except CabError (Nat × FolderReaderSt D) :=
  let new_offset : Int :=
    match pos with
    | .start offset => (offset : Int)
    | .current delta => (st.current_offset_within_folder : Int) + delta
    | .fromEnd delta => (st.total_size : Int) + delta
  if new_offset < 0 ∨ (st.total_size : Int) < new_offset then .error .invalidInput
  else
    let t := new_offset.toNat
    match (if t < current_block_start st then
        rewind impl bytes { st with decompressor := dreset }
      else .ok st) with
    | .error e => .error e
    | .ok st1 =>
        match (if 0 < t then fastForward impl bytes t (st1.data_blocks.length + 1) st1
          else .ok st1) with
        | .error e => .error e
        | .ok st2 =>
            .ok (t, { st2 with
              current_offset_within_block := t - current_block_start st2,
              current_offset_within_folder := t })

/-- Re-running the decompressor over a list of blocks from a given
state: read each block's payload and decompress it in order. -/
def replayDecomp {D : Type} (impl : DecompImpl D) (bytes : Bytes) :
    D → List DataBlockEntry → Option D
  | d, [] => some d
  | d, blk :: rest =>
      match readExact bytes blk.data_offset blk.compressed_size with
      | none => none
      | some (payload, _) =>
          match impl.decompress d payload blk.uncompressed_size with
          | .error _ => none
          | .ok (_, d2) => replayDecomp impl bytes d2 rest

/-- A two-block uncompressed folder: per block an 8-byte header
(checksum 0, compressed and uncompressed size 1) and a 1-byte payload. -/
def c3bytes : Bytes := [0, 0, 0, 0, 1, 0, 1, 0, 0xAA, 0, 0, 0, 0, 1, 0, 1, 0, 0xBB]

/-- The state `FolderReader::new` produces on `c3bytes`. -/
def c3St : FolderReaderSt Unit :=
  ⟨(), 2, [⟨0, 1, 1, [], 8, 1⟩, ⟨0, 1, 1, [], 17, 2⟩], 0, [0xAA], 0, 0⟩

/-- The lazy-discovery invariant as the specification states it: at any
time `data_blocks` holds exactly the entries of blocks
`0..=current_block_index` observed so far. -/
def LazyDiscoveryInv {D : Type} (st : FolderReaderSt D) : Prop :=
  st.data_blocks.length = st.current_block_index + 1

instance {D : Type} (st : FolderReaderSt D) : Decidable (LazyDiscoveryInv st) :=
  inferInstanceAs (Decidable (_ = _))

/-- A two-block MSZIP folder whose payloads are stored-format blocks for
`[1, 2, 3]` and `[4, 5]` (checksums 0). -/
def c2bytes : Bytes :=
  [0, 0, 0, 0, 10, 0, 3, 0] ++ [0x43, 0x4B, 1, 3, 0, 252, 255, 1, 2, 3] ++
  [0, 0, 0, 0, 9, 0, 2, 0] ++ [0x43, 0x4B, 1, 2, 0, 253, 255, 4, 5]

def mszip0 : DecompImpl MsZipDecompressor := mszipImpl infl0

/-- Open `c2bytes`, read 3 bytes (all of block 0), then 1 byte (entering
block 1): the reader is mid-block-1 with a populated dictionary. -/
def c2State : Except CabError (FolderReaderSt MsZipDecompressor) :=
  match FolderReader.new mszip0 MsZipDecompressor.new c2bytes ⟨0, 2⟩ 0 with
  | .error e => .error e
  | .ok st =>
  match folderRead mszip0 c2bytes st 3 with
  | .error e => .error e
  | .ok (_, st) =>
  match folderRead mszip0 c2bytes st 1 with
  | .error e => .error e
  | .ok (_, st) => .ok st

/-- The reader state `c2State` evaluates to. -/
def c2St : FolderReaderSt MsZipDecompressor :=
  ⟨⟨[1, 2, 3, 4, 5]⟩, 5, [⟨0, 10, 3, [], 8, 3⟩, ⟨0, 9, 2, [], 26, 5⟩], 1, [4, 5], 1, 4⟩

/-- The reader state the code's seek-to-0 produces from `c2St`. -/
def c2St2 : FolderReaderSt MsZipDecompressor :=
  ⟨⟨[1, 2, 3, 4, 5, 1, 2, 3]⟩, 5, [⟨0, 10, 3, [], 8, 3⟩, ⟨0, 9, 2, [], 26, 5⟩], 0,
    [1, 2, 3], 0, 0⟩

/-- C2 counterexample: on the concrete backward seek to offset 0, the
code's seek does not reset the decompressor (the MSZIP dictionary keeps
the pre-seek bytes `[1,2,3,4,5]` and grows), while the specified
reset-then-rewind seek leaves dictionary `[1,2,3]`; the two disagree. -/
theorem folderSeek_backward_no_reset :
    (c2State.bind (fun st => folderSeek mszip0 c2bytes st (.start 0))).toOption.map
        (fun r => r.2.decompressor.dictionary) = some [1, 2, 3, 4, 5, 1, 2, 3] ∧
    (c2State.bind
        (fun st => folderSeek_spec mszip0 MsZipDecompressor.new c2bytes st (.start 0))).toOption.map
        (fun r => r.2.decompressor.dictionary) = some [1, 2, 3] ∧
    (c2State.bind (fun st => folderSeek mszip0 c2bytes st (.start 0))).toOption.map
        (fun r => r.2.decompressor.dictionary) ≠
      (c2State.bind
        (fun st => folderSeek_spec mszip0 MsZipDecompressor.new c2bytes st (.start 0))).toOption.map
        (fun r => r.2.decompressor.dictionary) := by
  refine ⟨by decide, by decide, by decide⟩

/-- C3 counterexample: immediately after construction on a two-block
folder the reader has `current_block_index = 0` but `data_blocks`
already holds BOTH entries — headers are scanned up front, violating the
stated lazy-discovery invariant. -/
theorem folder_reader_new_not_lazy :
    (FolderReader.new uncompressedImpl () c3bytes ⟨0, 2⟩ 0).toOption.map
        (fun st => (st.current_block_index, st.data_blocks.length)) = some (0, 2) ∧
    (FolderReader.new uncompressedImpl () c3bytes ⟨0, 2⟩ 0).toOption.map
        (fun st => decide (LazyDiscoveryInv st)) = some false := by
  refine ⟨by decide, by decide⟩

theorem readU32_pos {bytes : Bytes} {pos v pos2 : Nat}
    (h : readU32 bytes pos = some (v, pos2)) : pos2 = pos + 4 := by
  rw [readU32] at h
  split at h
  · injection h with h
    injection h with h1 h2
    omega
  · cases h

theorem readU16_pos {bytes : Bytes} {pos v pos2 : Nat}
    (h : readU16 bytes pos = some (v, pos2)) : pos2 = pos + 2 := by
  rw [readU16] at h
  split at h
  · injection h with h
    injection h with h1 h2
    omega
  · cases h

theorem readExact_some {bytes : Bytes} {pos n : Nat} {buf : Bytes} {pos2 : Nat}
    (h : readExact bytes pos n = some (buf, pos2)) :
    pos2 = pos + n ∧ buf = (bytes.drop pos).take n ∧ pos + n ≤ bytes.length := by
  rw [readExact] at h
  split at h
  · injection h with h
    injection h with h1 h2
    exact ⟨h2.symm, h1.symm, by assumption⟩
  · cases h

theorem parse_block_entry_fields {bytes : Bytes} {pos total reserve : Nat}
    {blk : DataBlockEntry} {pos2 : Nat}
    (h : parse_block_entry bytes pos total reserve = some (blk, pos2)) :
    blk.data_offset = pos + 8 + reserve ∧
    blk.cumulative_size = total + blk.uncompressed_size ∧
    pos2 = blk.data_offset + blk.compressed_size := by
  rw [parse_block_entry] at h
  split at h
  · cases h
  case _ cs pos1 hu32 =>
    split at h
    · cases h
    case _ csz posa hu16a =>
      split at h
      · cases h
      case _ usz posb hu16b =>
        split at h
        · cases h
        case _ rsv posc hre =>
          injection h with h
          injection h with h1 h2
          subst h1
          have e1 := readU32_pos hu32
          have e2 := readU16_pos hu16a
          have e3 := readU16_pos hu16b
          have e4 := (readExact_some hre).1
          refine ⟨by simp; omega, by simp, by simp; omega⟩

/-- Positional chaining of a parsed block list: each entry's payload
starts 8 + reserve bytes after its header, the next header follows the
payload, and cumulative sizes accumulate. -/
def BlocksChained (reserve : Nat) : Nat → Nat → List DataBlockEntry → Prop
  | _, _, [] => True
  | pos, total, blk :: rest =>
      blk.data_offset = pos + 8 + reserve ∧
      blk.cumulative_size = total + blk.uncompressed_size ∧
      BlocksChained reserve (blk.data_offset + blk.compressed_size) blk.cumulative_size rest

theorem parseBlocks_spec (bytes : Bytes) (reserve : Nat) :
    ∀ (n pos total : Nat) (blks : List DataBlockEntry) (total2 pos2 : Nat),
    parseBlocks bytes reserve n pos total = some (blks, total2, pos2) →
    blks.length = n ∧
    total2 = total + (blks.map DataBlockEntry.uncompressed_size).sum ∧
    BlocksChained reserve pos total blks := by
  intro n
  induction n with
  | zero =>
      intro pos total blks total2 pos2 h
      rw [parseBlocks] at h
      injection h with h
      injection h with h1 h2
      injection h2 with h2 h3
      subst h1
      subst h2
      exact ⟨rfl, by simp, trivial⟩
  | succ m ih =>
      intro pos total blks total2 pos2 h
      rw [parseBlocks] at h
      split at h
      · cases h
      case _ blk posmid hblk =>
        split at h
        · cases h
        case _ rest totalr posr hrest =>
          injection h with h
          injection h with h1 h2
          injection h2 with h2 h3
          subst h1
          subst h2
          obtain ⟨hlen, htot, hchain⟩ := ih posmid (total + blk.uncompressed_size) rest totalr posr hrest
          obtain ⟨f1, f2, f3⟩ := parse_block_entry_fields hblk
          refine ⟨by simp [hlen], by simp [htot]; omega, f1, f2, ?_⟩
          rw [← f3, f2]
          exact hchain

theorem chained_adjacent (reserve : Nat) :
    ∀ (blks : List DataBlockEntry) (pos total : Nat), BlocksChained reserve pos total blks →
    ∀ (i : Nat) (hi : i + 1 < blks.length),
      (blks.get ⟨i + 1, hi⟩).data_offset =
        (blks.get ⟨i, by omega⟩).data_offset +
          (blks.get ⟨i, by omega⟩).compressed_size + 8 + reserve ∧
      (blks.get ⟨i + 1, hi⟩).cumulative_size =
        (blks.get ⟨i, by omega⟩).cumulative_size +
          (blks.get ⟨i + 1, hi⟩).uncompressed_size := by
  intro blks
  induction blks with
  | nil =>
      intro pos total hc i hi
      simp at hi
  | cons blk rest ih =>
      intro pos total hc i hi
      obtain ⟨h1, h2, hrest⟩ := hc
      cases i with
      | zero =>
          cases rest with
          | nil => simp at hi
          | cons blk2 rest2 =>
              obtain ⟨g1, g2, _⟩ := hrest
              exact ⟨by simp [g1], by simp [g2]⟩
      | succ j =>
          have hj : j + 1 < rest.length := by
            simp at hi
            omega
          have := ih _ _ hrest j hj
          simpa using this

theorem chained_head (reserve : Nat) (blks : List DataBlockEntry) (pos total : Nat)
    (hc : BlocksChained reserve pos total blks) (h0 : 0 < blks.length) :
    (blks.get ⟨0, h0⟩).data_offset = pos + 8 + reserve ∧
    (blks.get ⟨0, h0⟩).cumulative_size = total + (blks.get ⟨0, h0⟩).uncompressed_size := by
  cases blks with
  | nil => simp at h0
  | cons b rest =>
      obtain ⟨g1, g2, _⟩ := hc
      exact ⟨by simpa using g1, by simpa using g2⟩

theorem load_block_frame {D : Type} {impl : DecompImpl D} {bytes : Bytes}
    {st st2 : FolderReaderSt D} (h : load_block impl bytes st = .ok st2) :
    st2.data_blocks = st.data_blocks ∧ st2.current_block_index = st.current_block_index ∧
    st2.total_size = st.total_size ∧
    st2.current_offset_within_block = st.current_offset_within_block ∧
    st2.current_offset_within_folder = st.current_offset_within_folder := by
  rw [load_block] at h
  by_cases hidx : st.current_block_index < st.data_blocks.length
  · rw [dif_pos hidx] at h
    dsimp only at h
    split at h
    · cases h
    case _ compressed_data x hre =>
      split at h
      · cases h
      case _ =>
        split at h
        · cases h
        case _ out d2 hdec =>
          injection h with h
          subst h
          exact ⟨rfl, rfl, rfl, rfl, rfl⟩
  · rw [dif_neg hidx] at h
    injection h with h
    subst h
    exact ⟨rfl, rfl, rfl, rfl, rfl⟩

/-- Amended C3: `FolderReader::new` parses ALL `num_data_blocks` block
headers up front at construction (it is not lazy): `data_blocks` holds
an entry for every block while `current_block_index` is 0, each entry's
payload begins 8 + reserve bytes after its header, each subsequent
header lies immediately after the previous block's payload, cumulative
sizes accumulate per block, and `total_size` is the sum of the
uncompressed sizes. -/
theorem folder_reader_new_eager {D : Type} (impl : DecompImpl D) (d0 : D) (bytes : Bytes)
    (entry : FolderEntryInfo) (reserve : Nat) (st : FolderReaderSt D)
    (h : FolderReader.new impl d0 bytes entry reserve = .ok st) :
    st.data_blocks.length = entry.num_data_blocks ∧
    st.current_block_index = 0 ∧
    st.total_size = (st.data_blocks.map DataBlockEntry.uncompressed_size).sum ∧
    (∀ h0 : 0 < st.data_blocks.length,
      (st.data_blocks.get ⟨0, h0⟩).data_offset =
        entry.first_data_block_offset + 8 + reserve ∧
      (st.data_blocks.get ⟨0, h0⟩).cumulative_size =
        (st.data_blocks.get ⟨0, h0⟩).uncompressed_size) ∧
    (∀ (i : Nat) (hi : i + 1 < st.data_blocks.length),
      (st.data_blocks.get ⟨i + 1, hi⟩).data_offset =
        (st.data_blocks.get ⟨i, by omega⟩).data_offset +
          (st.data_blocks.get ⟨i, by omega⟩).compressed_size + 8 + reserve ∧
      (st.data_blocks.get ⟨i + 1, hi⟩).cumulative_size =
        (st.data_blocks.get ⟨i, by omega⟩).cumulative_size +
          (st.data_blocks.get ⟨i + 1, hi⟩).uncompressed_size) := by
  rw [FolderReader.new] at h
  split at h
  · cases h
  case _ data_blocks total_size posr hparse =>
    obtain ⟨hlen, htot, hchain⟩ :=
      parseBlocks_spec bytes reserve entry.num_data_blocks entry.first_data_block_offset 0
        data_blocks total_size posr hparse
    obtain ⟨hdb, hcbi, hts, _, _⟩ := load_block_frame h
    have hdb2 : st.data_blocks = data_blocks := by simpa using hdb
    have hcbi2 : st.current_block_index = 0 := by simpa using hcbi
    have hts2 : st.total_size = total_size := by simpa using hts
    have hchain2 : BlocksChained reserve entry.first_data_block_offset 0 st.data_blocks := by
      rw [hdb2]
      exact hchain
    refine ⟨by rw [hdb2]; exact hlen, hcbi2, ?_, ?_, ?_⟩
    · rw [hts2, hdb2]
      simpa using htot
    · intro h0
      have := chained_head reserve st.data_blocks entry.first_data_block_offset 0 hchain2 h0
      simpa using this
    · intro i hi
      exact chained_adjacent reserve st.data_blocks entry.first_data_block_offset 0 hchain2 i hi

/-- Witness for C3's amended claim at the concrete two-block folder. -/
theorem folder_reader_new_eager_witness :
    FolderReader.new uncompressedImpl () c3bytes ⟨0, 2⟩ 0 = .ok c3St ∧
    c3St.data_blocks.length = 2 ∧ c3St.current_block_index = 0 :=
  ⟨by rfl,
   (folder_reader_new_eager uncompressedImpl () c3bytes ⟨0, 2⟩ 0 c3St (by rfl)).1,
   (folder_reader_new_eager uncompressedImpl () c3bytes ⟨0, 2⟩ 0 c3St (by rfl)).2.1⟩

/-- C4: checksum verification in `load_block`.  With the block's payload
readable and a decompressor that never reports a checksum error itself:
the load fails with the checksum error naming the block index, the
stored (expected) value and the recomputed (actual) value — where the
raw checksum is computed over the reserve bytes then the compressed
payload and XORed with `(compressed_size | (uncompressed_size << 16))` —
exactly when the stored checksum is non-zero and differs from the
recomputed value; any checksum error carries exactly those fields; and
a stored checksum of 0 skips verification entirely, proceeding straight
to decompression. -/
theorem load_block_checksum_spec {D : Type} (impl : DecompImpl D) (bytes : Bytes)
    (st : FolderReaderSt D) (blk : DataBlockEntry) (payload : Bytes) (actual : Nat)
    (himpl : ∀ d data n i e a,
      impl.decompress d data n ≠ .error (.checksumMismatch i e a))
    (hidx : st.current_block_index < st.data_blocks.length)
    (hblk : st.data_blocks.get ⟨st.current_block_index, hidx⟩ = blk)
    (hread : readExact bytes blk.data_offset blk.compressed_size = some (payload, blk.data_offset + blk.compressed_size))
    (hactual : actual =
      ((Checksum.new.update blk.reserve_data).update payload).finalValue ^^^
        (blk.compressed_size ||| (blk.uncompressed_size <<< 16))) :
    ((load_block impl bytes st =
        .error (.checksumMismatch st.current_block_index blk.checksum actual)) ↔
      (blk.checksum ≠ 0 ∧ actual ≠ blk.checksum)) ∧
    (∀ i e a, load_block impl bytes st = .error (.checksumMismatch i e a) →
      i = st.current_block_index ∧ e = blk.checksum ∧ a = actual) ∧
    (blk.checksum = 0 →
      load_block impl bytes st =
        match impl.decompress st.decompressor payload blk.uncompressed_size with
        | .error e => .error e
        | .ok (out, d2) =>
            .ok { st with current_block_data := out, decompressor := d2 }) := by
  have hlb : load_block impl bytes st =
      (if blk.checksum ≠ 0 then
        (if actual ≠ blk.checksum then
          Except.error (CabError.checksumMismatch st.current_block_index blk.checksum actual)
        else
          match impl.decompress st.decompressor payload blk.uncompressed_size with
          | .error e => .error e
          | .ok (out, d2) =>
              .ok { st with current_block_data := out, decompressor := d2 })
      else
        match impl.decompress st.decompressor payload blk.uncompressed_size with
        | .error e => .error e
        | .ok (out, d2) =>
            .ok { st with current_block_data := out, decompressor := d2 }) := by
    rw [load_block, dif_pos hidx]
    dsimp only
    rw [hblk, hread]
    dsimp only
    rw [← hactual]
    by_cases hcs : blk.checksum ≠ 0
    · rw [if_pos hcs, if_pos hcs]
      by_cases hne : actual ≠ blk.checksum
      · rw [if_pos hne, if_pos hne]
      · rw [if_neg hne, if_neg hne]
    · rw [if_neg hcs, if_neg hcs]
  rw [hlb]
  by_cases hcs : blk.checksum ≠ 0
  · rw [if_pos hcs]
    by_cases hne : actual ≠ blk.checksum
    · rw [if_pos hne]
      refine ⟨⟨fun _ => ⟨hcs, hne⟩, fun _ => rfl⟩, ?_, fun hc0 => absurd hc0 hcs⟩
      intro i e a h
      injection h with h
      cases h
      exact ⟨rfl, rfl, rfl⟩
    · rw [if_neg hne]
      constructor
      · constructor
        · intro h
          cases hd : impl.decompress st.decompressor payload blk.uncompressed_size with
          | error e =>
              rw [hd] at h
              injection h with h
              rw [h] at hd
              exact absurd hd (himpl _ _ _ _ _ _)
          | ok r =>
              rw [hd] at h
              cases r
              cases h
        · intro hcontra
          exact absurd hcontra.2 hne
      · constructor
        · intro i e a h
          cases hd : impl.decompress st.decompressor payload blk.uncompressed_size with
          | error e2 =>
              rw [hd] at h
              injection h with h
              rw [h] at hd
              exact absurd hd (himpl _ _ _ _ _ _)
          | ok r =>
              rw [hd] at h
              cases r
              cases h
        · intro hc0
          exact absurd hc0 hcs
  · rw [if_neg hcs]
    have hcz : blk.checksum = 0 := by omega
    refine ⟨?_, ?_, fun _ => rfl⟩
    · constructor
      · intro h
        cases hd : impl.decompress st.decompressor payload blk.uncompressed_size with
        | error e =>
            rw [hd] at h
            injection h with h
            rw [h] at hd
            exact absurd hd (himpl _ _ _ _ _ _)
        | ok r =>
            rw [hd] at h
            cases r
            cases h
      · intro hcontra
        exact absurd hcontra.1 hcs
    · intro i e a h
      cases hd : impl.decompress st.decompressor payload blk.uncompressed_size with
      | error e2 =>
          rw [hd] at h
          injection h with h
          rw [h] at hd
          exact absurd hd (himpl _ _ _ _ _ _)
      | ok r =>
          rw [hd] at h
          cases r
          cases h

def c4bytes : Bytes := [1, 0, 0, 0, 1, 0, 1, 0, 0xAA]

def c4St : FolderReaderSt Unit := ⟨(), 1, [⟨1, 1, 1, [], 8, 1⟩], 0, [], 0, 0⟩

theorem uncompressedImpl_no_checksum_error :
    ∀ (d : Unit) (data : Bytes) (n i e a : Nat),
      uncompressedImpl.decompress d data n ≠ .error (.checksumMismatch i e a) := by
  intro d data n i e a h
  simp [uncompressedImpl] at h

/-- Witness for C4: a one-block folder whose stored checksum 1 differs
from the recomputed value `0x100AB`; the load fails with the error
naming block 0, expected 1, actual `0x100AB`. -/
theorem load_block_checksum_spec_witness :
    load_block uncompressedImpl c4bytes c4St =
      .error (.checksumMismatch 0 1 0x100ab) :=
  ((load_block_checksum_spec uncompressedImpl c4bytes c4St ⟨1, 1, 1, [], 8, 1⟩ [0xAA] 0x100ab
      uncompressedImpl_no_checksum_error (by decide) (by rfl) (by rfl) (by decide)).1).mpr
    ⟨by decide, by decide⟩

theorem get_congr {α : Type} {l1 l2 : List α} (h : l1 = l2) {j : Nat}
    (h1 : j < l1.length) (h2 : j < l2.length) : l1.get ⟨j, h1⟩ = l2.get ⟨j, h2⟩ := by
  subst h
  rfl

theorem take_succ_of_pos {α : Type} (l : List α) (n : Nat) (h0 : 0 < l.length) :
    l.take (n + 1) = l.get ⟨0, h0⟩ :: (l.drop 1).take n := by
  cases l with
  | nil => simp at h0
  | cons a as => simp

theorem load_block_eof {D : Type} {impl : DecompImpl D} {bytes : Bytes}
    {st : FolderReaderSt D} (hidx : ¬ st.current_block_index < st.data_blocks.length) :
    load_block impl bytes st = .ok { st with current_block_data := [] } := by
  rw [load_block, dif_neg hidx]

theorem load_block_decomp {D : Type} {impl : DecompImpl D} {bytes : Bytes}
    {st st2 : FolderReaderSt D} {blk : DataBlockEntry}
    (hidx : st.current_block_index < st.data_blocks.length)
    (hblk : st.data_blocks.get ⟨st.current_block_index, hidx⟩ = blk)
    (h : load_block impl bytes st = .ok st2) :
    ∃ payload pos2,
      readExact bytes blk.data_offset blk.compressed_size = some (payload, pos2) ∧
      impl.decompress st.decompressor payload blk.uncompressed_size =
        .ok (st2.current_block_data, st2.decompressor) := by
  rw [load_block, dif_pos hidx] at h
  dsimp only at h
  rw [hblk] at h
  split at h
  · cases h
  case _ payload pos2 hre =>
    split at h
    · cases h
    case _ =>
      split at h
      · cases h
      case _ out d2 hdec =>
        injection h with h
        subst h
        exact ⟨payload, pos2, hre, hdec⟩

theorem replayDecomp_append {D : Type} (impl : DecompImpl D) (bytes : Bytes) :
    ∀ (a : List DataBlockEntry) (d d1 : D) (b : List DataBlockEntry),
      replayDecomp impl bytes d a = some d1 →
      replayDecomp impl bytes d (a ++ b) = replayDecomp impl bytes d1 b := by
  intro a
  induction a with
  | nil =>
      intro d d1 b h
      rw [replayDecomp] at h
      injection h with h
      subst h
      simp
  | cons blk rest ih =>
      intro d d1 b h
      rw [replayDecomp] at h
      split at h
      · cases h
      case _ payload q hre =>
        split at h
        · cases h
        case _ out d2 hdec =>
          rw [List.cons_append, replayDecomp, hre]
          dsimp only
          rw [hdec]
          exact ih d2 d1 b h

theorem fastForward_spec {D : Type} (impl : DecompImpl D) (bytes : Bytes) (t : Nat) :
    ∀ (fuel : Nat) (st st2 : FolderReaderSt D),
      fastForward impl bytes t fuel st = .ok st2 →
      st2.data_blocks = st.data_blocks ∧
      st2.total_size = st.total_size ∧
      st2.current_offset_within_block = st.current_offset_within_block ∧
      st2.current_offset_within_folder = st.current_offset_within_folder ∧
      st.current_block_index ≤ st2.current_block_index ∧
      (∃ hlt : st2.current_block_index < st.data_blocks.length,
        t ≤ (st.data_blocks.get ⟨st2.current_block_index, hlt⟩).cumulative_size) ∧
      (∀ (j : Nat), st.current_block_index ≤ j → j < st2.current_block_index →
        ∀ hj : j < st.data_blocks.length,
        (st.data_blocks.get ⟨j, hj⟩).cumulative_size < t) ∧
      replayDecomp impl bytes st.decompressor
        ((st.data_blocks.drop (st.current_block_index + 1)).take
          (st2.current_block_index - st.current_block_index)) = some st2.decompressor := by
  intro fuel
  induction fuel with
  | zero =>
      intro st st2 h
      rw [fastForward] at h
      cases h
  | succ fuel ih =>
      intro st st2 h
      rw [fastForward] at h
      by_cases hidx : st.current_block_index < st.data_blocks.length
      · rw [dif_pos hidx] at h
        by_cases hcum :
            (st.data_blocks.get ⟨st.current_block_index, hidx⟩).cumulative_size < t
        · rw [if_pos hcum] at h
          split at h
          · cases h
          case _ stMid hload =>
            obtain ⟨hC1, hC2, hC3, hC4, hC5, ⟨hlt2, hcum2⟩, hmin2, hrep2⟩ := ih stMid st2 h
            obtain ⟨hmdb, hmidx, hmts, hmowb, hmowf⟩ := load_block_frame hload
            have hmdb2 : stMid.data_blocks = st.data_blocks := hmdb
            have hmidx2 : stMid.current_block_index = st.current_block_index + 1 := hmidx
            rw [hmdb2] at hC1 hlt2
            rw [hmidx2] at hC5 hmin2 hrep2
            have hia : st.current_block_index + 1 < st.data_blocks.length := by omega
            have hblkeq : ({ st with
                current_block_index := st.current_block_index + 1 } :
                  FolderReaderSt D).data_blocks.get
                ⟨({ st with current_block_index := st.current_block_index + 1 } :
                  FolderReaderSt D).current_block_index, hia⟩ =
                st.data_blocks.get ⟨st.current_block_index + 1, hia⟩ := rfl
            obtain ⟨payload, pos2, hre, hdec⟩ := load_block_decomp hia hblkeq hload
            refine ⟨by rw [hC1], by rw [hC2, hmts], by rw [hC3, hmowb],
              by rw [hC4, hmowf], by omega, ⟨hlt2, ?_⟩, ?_, ?_⟩
            · have := hcum2
              rwa [get_congr hmdb2] at this
            · intro j hj1 hj2 hj
              by_cases hje : j = st.current_block_index
              · subst hje
                exact hcum
              · have hj1b : st.current_block_index + 1 ≤ j := by omega
                have hjm : j < stMid.data_blocks.length := by rw [hmdb2]; exact hj
                have := hmin2 j hj1b hj2 hjm
                rwa [get_congr hmdb2] at this
            · have hdrop : st.data_blocks.drop (st.current_block_index + 1) =
                  st.data_blocks.get ⟨st.current_block_index + 1, hia⟩ ::
                    st.data_blocks.drop (st.current_block_index + 1 + 1) := by
                rw [List.drop_eq_getElem_cons hia]
                simp
              have hdec2 : impl.decompress st.decompressor payload
                  (st.data_blocks.get ⟨st.current_block_index + 1, hia⟩).uncompressed_size =
                  .ok (stMid.current_block_data, stMid.decompressor) := hdec
              have hsub : st2.current_block_index - st.current_block_index =
                  (st2.current_block_index - (st.current_block_index + 1)) + 1 := by omega
              rw [hdrop, hsub, List.take_succ_cons, replayDecomp, hre]
              dsimp only
              rw [hdec2]
              rw [hmdb2] at hrep2
              exact hrep2
        · rw [if_neg hcum] at h
          injection h with h
          subst h
          refine ⟨rfl, rfl, rfl, rfl, le_refl _, ⟨hidx, by omega⟩, ?_, ?_⟩
          · intro j hj1 hj2 hj
            omega
          · simp [replayDecomp]
      · rw [dif_neg hidx] at h
        cases h

/-- Amended C2: a seek whose target offset is earlier than the current
block's start rewinds the reader to block 0 and fast-forwards by loading
intermediate blocks until the block containing the target is current
(the final index is the least one whose cumulative size reaches the
target), but the decompressor state is NOT reset: the blocks
`0..=current` are re-decompressed starting from the PRE-seek
decompressor state (`replayDecomp` from `st.decompressor`). -/
theorem folderSeek_backward_spec {D : Type} (impl : DecompImpl D) (bytes : Bytes)
    (st : FolderReaderSt D) (t r : Nat) (st' : FolderReaderSt D)
    (hback : t < current_block_start st)
    (hseek : folderSeek impl bytes st (.start t) = .ok (r, st')) :
    r = t ∧
    st'.data_blocks = st.data_blocks ∧
    st'.total_size = st.total_size ∧
    st'.current_offset_within_folder = t ∧
    st'.current_offset_within_block = t - current_block_start st' ∧
    (t = 0 → st'.current_block_index = 0) ∧
    (0 < t → ∃ hlt : st'.current_block_index < st.data_blocks.length,
      t ≤ (st.data_blocks.get ⟨st'.current_block_index, hlt⟩).cumulative_size ∧
      ∀ (j : Nat), j < st'.current_block_index → ∀ hjl : j < st.data_blocks.length,
        (st.data_blocks.get ⟨j, hjl⟩).cumulative_size < t) ∧
    replayDecomp impl bytes st.decompressor
      (st.data_blocks.take (st'.current_block_index + 1)) = some st'.decompressor := by
  have hidx0 : st.current_block_index ≠ 0 := by
    intro h0
    rw [current_block_start, if_pos h0] at hback
    omega
  have hlen0 : 0 < st.data_blocks.length := by
    by_contra hl
    have hnone : st.data_blocks.get? (st.current_block_index - 1) = none := by
      rw [List.get?_eq_none]
      omega
    have hdz : ((Option.getD (none : Option DataBlockEntry) default)).cumulative_size = 0 := rfl
    rw [current_block_start, if_neg hidx0, hnone, hdz] at hback
    omega
  rw [folderSeek] at hseek
  dsimp only at hseek
  split at hseek
  · cases hseek
  case _ hcond =>
    simp only [Int.toNat_natCast] at hseek
    rw [if_pos hback] at hseek
    rw [rewind] at hseek
    dsimp only at hseek
    rw [if_pos hidx0] at hseek
    split at hseek
    · cases hseek
    case _ st1 hload =>
      obtain ⟨hdb1r, hix1r, hts1r, howb1r, howf1r⟩ := load_block_frame hload
      have hdb1 : st1.data_blocks = st.data_blocks := hdb1r
      have hix1 : st1.current_block_index = 0 := hix1r
      have hts1 : st1.total_size = st.total_size := hts1r
      obtain ⟨payload0, pos0, hre0, hdec0⟩ := load_block_decomp hlen0 rfl hload
      have hre0b : readExact bytes (st.data_blocks.get ⟨0, hlen0⟩).data_offset
          (st.data_blocks.get ⟨0, hlen0⟩).compressed_size = some (payload0, pos0) := hre0
      have hdec0b : impl.decompress st.decompressor payload0
          (st.data_blocks.get ⟨0, hlen0⟩).uncompressed_size =
          .ok (st1.current_block_data, st1.decompressor) := hdec0
      by_cases ht0 : 0 < t
      · rw [if_pos ht0] at hseek
        split at hseek
        · cases hseek
        case _ st2 hff =>
          injection hseek with hseek
          injection hseek with hr hstf
          subst hr
          subst hstf
          obtain ⟨hF1, hF2, hF3, hF4, hF5, ⟨hlt2, hcum2⟩, hmin2, hrep2⟩ :=
            fastForward_spec impl bytes t (st1.data_blocks.length + 1) st1 st2 hff
          rw [hdb1] at hF1
          have hlt2b : st2.current_block_index < st.data_blocks.length := by
            rw [hdb1] at hlt2
            exact hlt2
          have hcum2b : t ≤ (st.data_blocks.get
              ⟨st2.current_block_index, hlt2b⟩).cumulative_size :=
            get_congr hdb1 hlt2 hlt2b ▸ hcum2
          rw [hix1] at hmin2 hrep2 hF5
          refine ⟨rfl, hF1, by rw [hF2, hts1], rfl, rfl, fun hc => absurd hc (by omega),
            fun _ => ⟨hlt2b, hcum2b, ?_⟩, ?_⟩
          · intro j hj hjl
            have hjl1 : j < st1.data_blocks.length := by rw [hdb1]; exact hjl
            have hja := hmin2 j (by omega) hj hjl1
            exact get_congr hdb1 hjl1 hjl ▸ hja
          · show replayDecomp impl bytes st.decompressor
              (st.data_blocks.take (st2.current_block_index + 1)) = some st2.decompressor
            rw [take_succ_of_pos st.data_blocks st2.current_block_index hlen0,
              replayDecomp, hre0b]
            dsimp only
            rw [hdec0b]
            rw [hdb1] at hrep2
            simpa using hrep2
      · rw [if_neg ht0] at hseek
        injection hseek with hseek
        injection hseek with hr hstf
        subst hr
        subst hstf
        have ht00 : t = 0 := by omega
        refine ⟨rfl, hdb1, by rw [hts1], rfl, rfl, fun _ => hix1, fun hc => absurd hc ht0, ?_⟩
        show replayDecomp impl bytes st.decompressor
            (st.data_blocks.take (st1.current_block_index + 1)) = some st1.decompressor
        rw [hix1, take_succ_of_pos st.data_blocks 0 hlen0]
        rw [replayDecomp, hre0b]
        dsimp only
        rw [hdec0b]
        simp [replayDecomp]

/-- Witness for C2's amended claim on the concrete scenario: seeking
back to 0 from mid-block-1 rewinds to block 0, and the resulting
decompressor replays from the PRE-seek state. -/
theorem folderSeek_backward_spec_witness :
    folderSeek mszip0 c2bytes c2St (.start 0) = .ok (0, c2St2) ∧
    0 < current_block_start c2St ∧
    replayDecomp mszip0 c2bytes c2St.decompressor
        (c2St.data_blocks.take (c2St2.current_block_index + 1)) = some c2St2.decompressor :=
  ⟨by rfl, by decide,
   (folderSeek_backward_spec mszip0 c2bytes c2St 0 0 c2St2 (by decide)
      (by rfl)).2.2.2.2.2.2.2⟩

end RustCab
